import Mathlib

/-!
# lib_tar: a shallow embedding of `src/lib_tar.c`

The archive is a file: a length and a byte at every offset.  A file descriptor
is the archive together with its read position, which every routine receives
and hands back.  Loops that the C code does not bound take a fuel argument and
return `none` when it runs out.

C integers follow the usual LP64 conventions: `int` is 32 bits, `long`,
`size_t` and `off_t` are 64 bits, signed arithmetic wraps around and division
truncates towards zero.

Strings are byte lists.  A C string read from memory is the run of bytes before
the first NUL (`cstr`); a string read out of a header field is read from the
field's first byte to the first NUL of the header block, so a field that is
not NUL-terminated runs into the fields that follow it, exactly as `strcmp`,
`strlen` and `strtol` see it.  Memory past the end of the header block reads as
NUL.  Copies into local buffers are modelled as copies of the whole string.
The `printf` calls of `check_archive` are left out, and every `read`, `lseek`
to offset 0 and `write` on the descriptor is taken to succeed.
-/

namespace LibTar

/-! ## Files and descriptors -/

/-- An archive file: its length in bytes and the byte stored at each offset. -/
structure Archive where
  size : Nat
  byte : Nat → Nat

/-- Value and read position handed back by a scanning routine. -/
structure Ret where
  val : Int
  pos : Nat
  deriving DecidableEq, Repr

/-- A `struct posix_header` in memory: the byte at each index of the block. -/
abbrev Header := Nat → Nat

/-- The call `read(tar_fd, &header, 512) == 512`: the 512 bytes at the read position,
when the file holds that many. -/
def read_header (a : Archive) (pos : Nat) : Option Header :=
  if pos + 512 ≤ a.size then
    some (fun i => if i < 512 then a.byte (pos + i) % 256 else 0)
  else none

/-- Read position after a `read` that returned fewer than 512 bytes. -/
def short_read_pos (a : Archive) (pos : Nat) : Nat :=
  if pos < a.size then a.size else pos

/-- The call `lseek(tar_fd, off, SEEK_CUR)`: a seek that would land before offset 0
fails and leaves the position where it was. No upper limit on offsets is
modelled: a seek forward succeeds here, as the real call does when its target
lies within the file; past the end of the file the real call also fails once
the target exceeds what `off_t` or the file system holds. -/
def lseek_cur (pos : Nat) (off : Int) : Nat :=
  if 0 ≤ (pos : Int) + off then ((pos : Int) + off).toNat else pos

/-! ## C arithmetic -/

/-- Wrap-around to a 32-bit `int`. -/
def wrap_int (x : Int) : Int := (x + 2147483648) % 4294967296 - 2147483648

/-- Wrap-around to a 64-bit `long`. -/
def wrap_long (x : Int) : Int :=
  (x + 9223372036854775808) % 18446744073709551616 - 9223372036854775808

/-- The global `int block_size = 512;`. -/
def block_size : Int := 512

/-- The seek offset of `check_archive`, `exists`, `is_file` and `is_symlink`:
`int nbr_blocks = (file_size + block_size - 1) / block_size;` followed by the
`int` product `nbr_blocks * block_size`. -/
def skip_int (file_size : Int) : Int :=
  let nbr_blocks := wrap_int (Int.tdiv (wrap_long (wrap_long (file_size + block_size) - 1)) block_size)
  wrap_int (nbr_blocks * block_size)

/-- The seek offset of `is_dir`, `list` and `add_file`:
the `long` expression `((size + 511) / 512) * 512`. -/
def skip_long (size : Int) : Int :=
  wrap_long (Int.tdiv (wrap_long (size + 511)) 512 * 512)

/-! ## C strings and `strtol` -/

/-- The C string stored at the start of `s`: the bytes before the first NUL. -/
def cstr (s : List Nat) : List Nat := s.takeWhile (fun c => c != 0)

/-- The `n` bytes of memory that start at index `off`. -/
def span (hdr : Header) : Nat → Nat → List Nat
  | _, 0 => []
  | off, n + 1 => hdr off :: span hdr (off + 1) n

/-- The memory of a header block from index `off` to the end of the block. -/
def mem (hdr : Header) (off : Nat) : List Nat := span hdr off (512 - off)

/-- The C string that starts at index `off` of a header block. -/
def cstr_at (hdr : Header) (off : Nat) : List Nat := cstr (mem hdr off)

/-- The C function `isspace` in the C locale. -/
def isspace (c : Nat) : Bool := c == 32 || (9 ≤ c && c ≤ 13)

/-- Value of the leading run of octal digits of `s`, continuing from `acc`. -/
def oct_digits : List Nat → Nat → Nat
  | [], acc => acc
  | c :: cs, acc => if 48 ≤ c ∧ c ≤ 55 then oct_digits cs (acc * 8 + (c - 48)) else acc

/-- The call `strtol(s, NULL, 8)`: leading white space is skipped, one sign is accepted,
the octal digits that follow are converted, and the result is clamped to the
range of `long`. -/
def strtol8 (s : List Nat) : Int :=
  match s.dropWhile isspace with
  | 45 :: r => max (-9223372036854775808) (-(oct_digits r 0 : Int))
  | 43 :: r => min 9223372036854775807 (oct_digits r 0 : Int)
  | r => min 9223372036854775807 (oct_digits r 0 : Int)

/-! ## Header layout

`lib_tar.h` is not part of the sources at hand; the layout and the constants
below are the ones the specification gives for the header block. -/

/-- Modelled from the spec: `TAR_INT` of `lib_tar.h`, the permissive octal
reading of a header field. It is taken to be `strtol(field, NULL, 8)`, which is
how the routines that do not use the macro read the same size field. -/
def TAR_INT (hdr : Header) (off : Nat) : Int := strtol8 (mem hdr off)

/-- Modelled from the spec: offset of the `name` field (100 bytes). -/
def off_name : Nat := 0
/-- Modelled from the spec: offset of the `mode` field (8 bytes). -/
def off_mode : Nat := 100
/-- Modelled from the spec: offset of the `size` field (12 bytes, octal). -/
def off_size : Nat := 124
/-- Modelled from the spec: offset of the `chksum` field (8 bytes, octal). -/
def off_chksum : Nat := 148
/-- Modelled from the spec: offset of the `typeflag` byte. -/
def off_typeflag : Nat := 156
/-- Modelled from the spec: offset of the `linkname` field (100 bytes). -/
def off_linkname : Nat := 157
/-- Modelled from the spec: offset of the `magic` field (6 bytes). -/
def off_magic : Nat := 257
/-- Modelled from the spec: offset of the `version` field (2 bytes). -/
def off_version : Nat := 263

/-- Modelled from the spec: `REGTYPE`, the typeflag `'0'` of a regular file. -/
def REGTYPE : Nat := 48
/-- Modelled from the spec: `SYMTYPE`, the typeflag `'2'` of a symbolic link. -/
def SYMTYPE : Nat := 50
/-- Modelled from the spec: `DIRTYPE`, the typeflag `'5'` of a directory. -/
def DIRTYPE : Nat := 53
/-- Modelled from the spec: `TMAGIC`, the bytes of `"ustar"`. -/
def TMAGIC : List Nat := [117, 115, 116, 97, 114]

/-! ## `check_archive` -/

/-- The checksum loop of `check_archive`: the bytes of the block are added up in
an `unsigned int`, the eight bytes of the checksum field counting as spaces. -/
def checksum_loop (hdr : Header) : Nat :=
  (List.range 512).foldl
    (fun sum i => if 148 ≤ i ∧ i < 156 then (sum + 32) % 4294967296
                  else (sum + hdr i) % 4294967296) 0

/-- The `while` loop of `check_archive`, with `num` headers counted so far. -/
def check_archive_loop : Nat → Archive → Nat → Nat → Option Ret
  | 0, _, _, _ => none
  | fuel + 1, a, pos, num =>
    match read_header a pos with
    | none => some ⟨num, short_read_pos a pos⟩
    | some hdr =>
      if hdr 0 = 0 then some ⟨num, pos + 512⟩
      else
        let file_size := strtol8 (mem hdr off_size)
        if cstr_at hdr off_magic ≠ TMAGIC then some ⟨-1, pos + 512⟩
        else if hdr off_version ≠ 48 ∧ hdr (off_version + 1) ≠ 48 then
          some ⟨-2, pos + 512⟩
        else if (checksum_loop hdr : Int) ≠ strtol8 (mem hdr off_chksum) then
          some ⟨-3, pos + 512⟩
        else
          check_archive_loop fuel a (lseek_cur (pos + 512) (skip_int file_size)) (num + 1)

/-- The routine `check_archive(tar_fd)`, the descriptor standing at `pos`. -/
def check_archive (fuel : Nat) (a : Archive) (pos : Nat) : Option Ret :=
  check_archive_loop fuel a pos 0

/-! ## `exists`, `is_dir`, `is_file`, `is_symlink` -/

/-- The test `strcmp(s, t) == 0`. -/
def strcmp_eq (s t : List Nat) : Bool := cstr s == cstr t

/-- The test `strncmp(s, t, n) == 0`. -/
def strncmp_eq (s t : List Nat) (n : Nat) : Bool := (cstr s).take n == (cstr t).take n

/-- The `while` loop of `exists`. -/
def exists_loop : Nat → Archive → Nat → List Nat → Option Ret
  | 0, _, _, _ => none
  | fuel + 1, a, pos, path =>
    match read_header a pos with
    | none => some ⟨0, short_read_pos a pos⟩
    | some hdr =>
      if hdr 0 = 0 then some ⟨0, pos + 512⟩
      else if strcmp_eq (mem hdr off_name) path then some ⟨1, pos + 512⟩
      else
        let file_size := strtol8 (mem hdr off_size)
        exists_loop fuel a (lseek_cur (pos + 512) (skip_int file_size)) path

/-- The routine `exists(tar_fd, path)`, named `tar_exists` here: the descriptor is first moved to offset 0. -/
def tar_exists (fuel : Nat) (a : Archive) (_pos : Nat) (path : List Nat) : Option Ret :=
  exists_loop fuel a 0 path

/-- The string left in a buffer after
`if (len > 0 && buf[len-1] == '/') buf[len-1] = '\0';`. -/
def strip_slash (s : List Nat) : List Nat :=
  if 0 < s.length ∧ s.getD (s.length - 1) 0 = 47 then s.take (s.length - 1) else s

/-- The `while` loop of `is_dir`. -/
def is_dir_loop : Nat → Archive → Nat → List Nat → Option Ret
  | 0, _, _, _ => none
  | fuel + 1, a, pos, path =>
    match read_header a pos with
    | none => some ⟨0, short_read_pos a pos⟩
    | some hdr =>
      if hdr 0 = 0 then some ⟨0, pos + 512⟩
      else
        let h_name := strip_slash (cstr_at hdr off_name)
        let p_clean := strip_slash (cstr path)
        if h_name = p_clean ∧ hdr off_typeflag = DIRTYPE then some ⟨1, pos + 512⟩
        else
          let file_size := TAR_INT hdr off_size
          is_dir_loop fuel a (lseek_cur (pos + 512) (skip_long file_size)) path

/-- The routine `is_dir(tar_fd, path)`: the descriptor is first moved to offset 0. -/
def is_dir (fuel : Nat) (a : Archive) (_pos : Nat) (path : List Nat) : Option Ret :=
  is_dir_loop fuel a 0 path

/-- The `while` loop of `is_file`. -/
def is_file_loop : Nat → Archive → Nat → List Nat → Option Ret
  | 0, _, _, _ => none
  | fuel + 1, a, pos, path =>
    match read_header a pos with
    | none => some ⟨0, short_read_pos a pos⟩
    | some hdr =>
      if hdr 0 = 0 then some ⟨0, pos + 512⟩
      else if strcmp_eq (mem hdr off_name) path ∧
          (hdr off_typeflag = 48 ∨ hdr off_typeflag = 0) then some ⟨1, pos + 512⟩
      else
        let file_size := strtol8 (mem hdr off_size)
        is_file_loop fuel a (lseek_cur (pos + 512) (skip_int file_size)) path

/-- The routine `is_file(tar_fd, path)`: the descriptor is first moved to offset 0. -/
def is_file (fuel : Nat) (a : Archive) (_pos : Nat) (path : List Nat) : Option Ret :=
  is_file_loop fuel a 0 path

/-- The `while` loop of `is_symlink`. -/
def is_symlink_loop : Nat → Archive → Nat → List Nat → Option Ret
  | 0, _, _, _ => none
  | fuel + 1, a, pos, path =>
    match read_header a pos with
    | none => some ⟨0, short_read_pos a pos⟩
    | some hdr =>
      if hdr 0 = 0 then some ⟨0, pos + 512⟩
      else if strcmp_eq (mem hdr off_name) path ∧ hdr off_typeflag = 50 then
        some ⟨1, pos + 512⟩
      else
        let file_size := strtol8 (mem hdr off_size)
        is_symlink_loop fuel a (lseek_cur (pos + 512) (skip_int file_size)) path

/-- The routine `is_symlink(tar_fd, path)`: the scan starts where the descriptor stands. -/
def is_symlink (fuel : Nat) (a : Archive) (pos : Nat) (path : List Nat) : Option Ret :=
  is_symlink_loop fuel a pos path

/-! ## `list` -/

/-- What `list` hands back: the return value, the final `*no_entries`, the
writes `strncpy(entries[i], ..)` made in order, each with its index `i`, and the
read position. -/
structure ListRet where
  val : Int
  no_entries : Nat
  writes : List (Nat × List Nat)
  pos : Nat
  deriving DecidableEq, Repr

/-- The string that `strncpy(dst, s, 100)` leaves in `dst`. -/
def strncpy100 (s : List Nat) : List Nat := (cstr s).take 100

/-- The inner `while` of the resolution loop of `list`: the link target copied
into `current_path` when a symlink entry named `current_path` is met, `none`
when the scan ends without one. -/
def find_link : Nat → Archive → Nat → List Nat → Option (Option (List Nat))
  | 0, _, _, _ => none
  | fuel + 1, a, pos, current_path =>
    match read_header a pos with
    | none => some none
    | some hdr =>
      if hdr 0 = 0 then some none
      else if strcmp_eq (mem hdr off_name) current_path ∧ hdr off_typeflag = SYMTYPE then
        some (some (strncpy100 (mem hdr off_linkname)))
      else
        let size := TAR_INT hdr off_size
        find_link fuel a (lseek_cur (pos + 512) (skip_long size)) current_path

/-- The resolution loop `while (!resolved)` of `list`: `n` bounds its
iterations, `fuel` those of each inner scan. -/
def resolve : Nat → Nat → Archive → List Nat → Option (List Nat)
  | 0, _, _, _ => none
  | n + 1, fuel, a, current_path =>
    match find_link fuel a 0 current_path with
    | none => none
    | some none => some current_path
    | some (some target) => resolve n fuel a target

/-- The call `strchr(&header[off], c)` with `n` bytes of the block left to look at: the
index of the first `c` met before the terminating NUL, `none` for a NULL
result. -/
def strchr (hdr : Header) (c : Nat) : Nat → Nat → Option Nat
  | 0, _ => none
  | n + 1, off =>
    if hdr off = c then some off
    else if hdr off = 0 then none
    else strchr hdr c n (off + 1)

/-- The test of the listing pass of `list` on one header: whether the entry is
written out as a direct child of `current_path`. -/
def is_listed (hdr : Header) (current_path : List Nat) : Bool :=
  let t_len := (cstr current_path).length
  if t_len = 0 ∨ strncmp_eq (mem hdr off_name) current_path t_len then
    if t_len = 0 ∨ ¬ strcmp_eq (mem hdr off_name) current_path then
      let rel := off_name + t_len
      let rel := if hdr rel = 47 then rel + 1 else rel
      if hdr rel ≠ 0 then
        match strchr hdr 47 (512 - rel) rel with
        | none => true
        | some slash => hdr (slash + 1) = 0
      else false
    else false
  else false

/-- The listing `while` loop of `list`. -/
def list_loop : Nat → Archive → Nat → List Nat → Nat → Nat → List (Nat × List Nat) → Bool →
    Option ListRet
  | 0, _, _, _, _, _, _, _ => none
  | fuel + 1, a, pos, current_path, max_out, count, writes, path_exists =>
    match read_header a pos with
    | none => some ⟨if path_exists then 1 else 0, count, writes, short_read_pos a pos⟩
    | some hdr =>
      if hdr 0 = 0 then some ⟨if path_exists then 1 else 0, count, writes, pos + 512⟩
      else
        let t_len := (cstr current_path).length
        let path_exists :=
          if 0 < t_len ∧ strcmp_eq (mem hdr off_name) current_path then true else path_exists
        let size := TAR_INT hdr off_size
        let next := lseek_cur (pos + 512) (skip_long size)
        if is_listed hdr current_path then
          if count < max_out then
            list_loop fuel a next current_path max_out (count + 1)
              (writes ++ [(count, strncpy100 (mem hdr off_name))]) true
          else list_loop fuel a next current_path max_out count writes true
        else list_loop fuel a next current_path max_out count writes path_exists

/-- The path `list` starts from: empty for a NULL or empty `path`, else the
first 100 bytes of `path` (`strncpy(current_path, path, 100)`). -/
def start_path (path : Option (List Nat)) : List Nat :=
  match path with
  | none => []
  | some p => if (cstr p).length = 0 then [] else strncpy100 p

/-- The routine `list(tar_fd, path, entries, no_entries)`: `path` is `none` for a NULL
pointer and `max_out` is the value of `*no_entries` on entry. -/
def list (fuel : Nat) (a : Archive) (_pos : Nat) (path : Option (List Nat)) (max_out : Nat) :
    Option ListRet :=
  match resolve fuel fuel a (start_path path) with
  | none => none
  | some current_path =>
    list_loop fuel a 0 current_path max_out 0 [] ((cstr current_path).length = 0)

/-! ## `add_file` -/

/-- What `add_file` hands back: the return value, the archive as the writes
leave it, and the position of the descriptor. -/
structure AddRet where
  val : Int
  archive : Archive
  pos : Nat

/-- The call `write(tar_fd, buf, n)` at offset `pos`, `buf[j]` being `data j`:
the `n` bytes replace what the file holds there and the file grows as far as
they reach; a gap between the old end of the file and `pos` reads as zeros. -/
def write_at (a : Archive) (pos n : Nat) (data : Nat → Nat) : Archive :=
  ⟨if n = 0 then a.size else max a.size (pos + n), fun i =>
    if pos ≤ i ∧ i < pos + n then data (i - pos)
    else if i < a.size then a.byte i
    else 0⟩

/-- The scan of `add_file` for the end of the archive: the position of the
descriptor when the `while` loop is left, which is the offset of the first
terminal header when there is one. -/
def find_end : Nat → Archive → Nat → Option Nat
  | 0, _, _ => none
  | fuel + 1, a, pos =>
    match read_header a pos with
    | none => some (short_read_pos a pos)
    | some hdr =>
      if hdr 0 = 0 then some (lseek_cur (pos + 512) (-512))
      else
        let size := strtol8 (mem hdr off_size)
        find_end fuel a (lseek_cur (pos + 512) (skip_long size))

/-- The octal digits of `n`, most significant first, at most `k` of them. -/
def oct_repr : Nat → Nat → List Nat
  | 0, _ => []
  | k + 1, n => if n < 8 then [48 + n] else oct_repr k (n / 8) ++ [48 + n % 8]

/-- The characters printed by `sprintf` for `%0wo` and `%0wlo`: the octal digits
of `n`, padded with `0` on the left to at least `w` characters. -/
def sprintf_oct (w n : Nat) : List Nat :=
  List.replicate (w - (oct_repr 22 n).length) 48 ++ oct_repr 22 n

/-- A write of the bytes `data` into a header in memory, from index `off` on. -/
def poke (h : Header) (off : Nat) (data : List Nat) : Header := fun i =>
  if off ≤ i ∧ i < off + data.length then data.getD (i - off) 0 else h i

/-- The sum loop of `add_file`: the 512 bytes of the block added up in an
`unsigned int`. -/
def sum_loop (h : Header) : Nat :=
  (List.range 512).foldl (fun sum i => (sum + h i) % 4294967296) 0

/-- The header of `add_file` before its checksum is printed: zero-filled, then
name (`strncpy` of 100 bytes), mode, size, typeflag, magic, version, and the
checksum field set to eight spaces. -/
def new_header_blank (filename : List Nat) (len : Nat) : Header :=
  let h : Header := fun _ => 0
  let h := poke h off_name ((cstr filename).take 100 ++
    List.replicate (100 - ((cstr filename).take 100).length) 0)
  let h := poke h off_mode (sprintf_oct 7 420 ++ [0])
  let h := poke h off_size (sprintf_oct 11 (len % 18446744073709551616) ++ [0])
  let h := poke h off_typeflag [REGTYPE]
  let h := poke h off_magic (TMAGIC ++ [0])
  let h := poke h off_version [48, 48]
  poke h off_chksum (List.replicate 8 32)

/-- The header that `add_file` writes: the blank header with its byte sum
printed into the checksum field by `sprintf(new_header.chksum, "%06o", sum)`. -/
def new_header (filename : List Nat) (len : Nat) : Header :=
  let h := new_header_blank filename len
  poke h off_chksum (sprintf_oct 6 (sum_loop h) ++ [0])

/-- The routine `add_file(tar_fd, filename, src, len)`, with `len` the length of
`src`. -/
def add_file (fuel : Nat) (a : Archive) (pos : Nat) (filename src : List Nat) : Option AddRet :=
  match tar_exists fuel a pos filename with
  | none => none
  | some e =>
    if e.val ≠ 0 then some ⟨-1, a, e.pos⟩
    else
      match find_end fuel a 0 with
      | none => none
      | some p =>
        let len := src.length
        let a := write_at a p 512 (new_header filename len)
        let a := write_at a (p + 512) len (fun j => src.getD j 0)
        let padding := (512 - len % 512) % 512
        let a := write_at a (p + 512 + len) padding (fun _ => 0)
        let a := write_at a (p + 512 + len + padding) 1024 (fun _ => 0)
        some ⟨0, a, p + 512 + len + padding + 1024⟩

/-! ## The archive as the specification reads it

The definitions of this section follow the words of the specification, not the
code: they are what the routines above are compared with. -/

/-- The name of an entry: the content of the 100-byte name field, NUL-padded
and not NUL-terminated when it fills the field. -/
def name_field (hdr : Header) : List Nat := cstr (span hdr off_name 100)

/-- The kind tag of an entry. -/
def typeflag (hdr : Header) : Nat := hdr off_typeflag

/-- The byte length of the data region: the size field read as octal. -/
def size_field (hdr : Header) : Nat := (TAR_INT hdr off_size).toNat

/-- Length of the data region in blocks, `ceil(size / 512)`. -/
def data_blocks (size : Nat) : Nat := (size + 511) / 512

/-- The headers reached from offset `pos` by stepping
`512 + ceil(size / 512) * 512` bytes per entry, up to and not counting the
first terminal header; `n` bounds the number of steps. -/
def entries_from : Nat → Archive → Nat → List Header
  | 0, _, _ => []
  | n + 1, a, pos =>
    match read_header a pos with
    | none => []
    | some hdr =>
      if hdr 0 = 0 then []
      else hdr :: entries_from n a (pos + 512 + data_blocks (size_field hdr) * 512)

/-- The entries of an archive: the headers before its first terminal header. -/
def entries (a : Archive) : List Header := entries_from (a.size + 1) a 0

/-- Offset of the first terminal header reached from `pos` by the same
stepping, `none` when the input ends before one is met. -/
def terminal_from : Nat → Archive → Nat → Option Nat
  | 0, _, _ => none
  | n + 1, a, pos =>
    match read_header a pos with
    | none => none
    | some hdr =>
      if hdr 0 = 0 then some pos
      else terminal_from n a (pos + 512 + data_blocks (size_field hdr) * 512)

/-- Offset of the terminal header of an archive, if it has one. -/
def terminal_offset (a : Archive) : Option Nat := terminal_from (a.size + 1) a 0

/-- The verification sum of a header: the sum of its 512 bytes, the eight bytes
of the checksum field counted as spaces. -/
def chksum_sum (hdr : Header) : Nat :=
  (span hdr 0 148).sum + 8 * 32 + (span hdr 156 356).sum

/-- A conformant header: magic `"ustar"` followed by NUL, version `"00"`, and a
checksum field equal to the verification sum. -/
def conformant (hdr : Header) : Bool :=
  span hdr off_magic 6 == [117, 115, 116, 97, 114, 0] &&
  span hdr off_version 2 == [48, 48] &&
  TAR_INT hdr off_chksum == (chksum_sum hdr : Int)

/-- A direct child of the root, as the specification words it: a non-empty name
with no `/` except possibly as its last character. -/
def root_child (name : List Nat) : Bool :=
  name != [] && !(name.dropLast.contains 47)

/-! ## Notions used in the statements -/

/-- A size field that decodes to a byte length whose rounding up to whole
blocks stays within `long`. -/
def size_ok (hdr : Header) : Bool :=
  decide (0 ≤ TAR_INT hdr off_size) && decide (TAR_INT hdr off_size + 511 < 9223372036854775808)

/-- The exact-match test of the listing pass of `list`: the path is not empty
and the entry is named exactly so. -/
def names_path (hdr : Header) (P : List Nat) : Bool :=
  decide (0 < (cstr P).length) && strcmp_eq (mem hdr off_name) P

/-- The name with one leading `/` removed, if it has one. -/
def drop_leading_slash (name : List Nat) : List Nat :=
  if name.head? = some 47 then name.tail else name

/-- The names that `list` is to write for the root: the names of the entries, in
scan order, that are direct children of the root once one leading `/` is
removed. -/
def root_children (a : Archive) : List (List Nat) :=
  ((entries a).map name_field).filter (fun n => root_child (drop_leading_slash n))

/-- The names the listing pass of `list` accepts as direct children of the
path `P`, in scan order: what it writes when the capacity allows. -/
def found_children (a : Archive) (P : List Nat) : List (List Nat) :=
  ((entries a).filter (fun h => is_listed h P)).map (fun h => strncpy100 (mem h off_name))

/-- A size field that decodes to a byte length whose rounding up to whole
blocks stays within `int`. -/
def size_fits_int (hdr : Header) : Bool :=
  decide (0 ≤ TAR_INT hdr off_size) && decide (TAR_INT hdr off_size + 511 < 2147483648)

/-- The common shape of the scanning loops: stop with 0 at the end of input or at
a terminal header, stop with 1 at the first header that `hit` accepts, and
move on by `skip` of the decoded size otherwise. -/
def scan_loop (skip : Int → Int) (hit : Header → Bool) : Nat → Archive → Nat → Option Ret
  | 0, _, _ => none
  | fuel + 1, a, pos =>
    match read_header a pos with
    | none => some ⟨0, short_read_pos a pos⟩
    | some hdr =>
      if hdr 0 = 0 then some ⟨0, pos + 512⟩
      else if hit hdr then some ⟨1, pos + 512⟩
      else scan_loop skip hit fuel a (lseek_cur (pos + 512) (skip (strtol8 (mem hdr off_size))))

/-- The link target of an entry: the content of the 100-byte linkname field. -/
def linkname_field (hdr : Header) : List Nat := cstr (span hdr off_linkname 100)

/-- The test for a symbolic-link entry named `L`: the name is byte-exactly `L`
and the typeflag is `'2'`. -/
def is_link_named (L : List Nat) (hdr : Header) : Bool :=
  name_field hdr == L && typeflag hdr == 50

/-- The offsets the scan seeks to, one for each entry reached from `pos`: the
offset just after the data of the entry, `512 + ceil(size / 512) * 512` bytes
past its header. -/
def seek_targets : Nat → Archive → Nat → List Nat
  | 0, _, _ => []
  | n + 1, a, pos =>
    match read_header a pos with
    | none => []
    | some hdr =>
      if hdr 0 = 0 then []
      else (pos + 512 + data_blocks (size_field hdr) * 512) ::
        seek_targets n a (pos + 512 + data_blocks (size_field hdr) * 512)

/-! ## Example archives -/

/-- A header block with the given fields, every other byte zero. -/
def mk_header (name mode size chksum : List Nat) (tf : Nat) (linkname magic version : List Nat) :
    Header := fun i =>
  if i < 100 then name.getD i 0
  else if i < 108 then mode.getD (i - 100) 0
  else if i < 124 then 0
  else if i < 136 then size.getD (i - 124) 0
  else if i < 148 then 0
  else if i < 156 then chksum.getD (i - 148) 0
  else if i = 156 then tf
  else if i < 257 then linkname.getD (i - 157) 0
  else if i < 263 then magic.getD (i - 257) 0
  else if i < 265 then version.getD (i - 263) 0
  else 0

/-- The archive made of the given blocks, one after the other. -/
def of_blocks (bs : List Header) : Archive :=
  ⟨512 * bs.length, fun i => (bs.getD (i / 512) (fun _ => 0)) (i % 512)⟩

/-- A block of 512 zero bytes. -/
def zero_block : Header := fun _ => 0

/-- The octal digits `"0000644"`. -/
def mode_644 : List Nat := [48, 48, 48, 48, 54, 52, 52]
/-- The octal digits `"0000755"`. -/
def mode_755 : List Nat := [48, 48, 48, 48, 55, 53, 53]
/-- The size field of an empty entry, `"00000000000"`. -/
def size_0 : List Nat := [48, 48, 48, 48, 48, 48, 48, 48, 48, 48, 48]

/-- Header of a regular file `big` of 2^31 bytes (size field `"20000000000"`). -/
def hdr_big : Header :=
  mk_header [98, 105, 103] mode_644 [50, 48, 48, 48, 48, 48, 48, 48, 48, 48, 48]
    [48, 48, 52, 49, 52, 49, 0, 32] 48 [] TMAGIC [48, 48]

/-- An archive of 2^31 + 1536 bytes: the header of `big`, its 2^31 data bytes
(an `x` followed by zeros) and two zero blocks. -/
def ex_big : Archive :=
  ⟨512 + 2147483648 + 1024, fun i => if i < 512 then hdr_big i else if i = 512 then 120 else 0⟩

/-- Header of an empty regular file `f` whose version field is `"01"`. -/
def hdr_version : Header :=
  mk_header [102] mode_644 size_0 [48, 48, 51, 54, 50, 52, 0, 32] 48 [] TMAGIC [48, 49]

/-- The file `f` with version `"01"`, followed by two zero blocks. -/
def ex_version : Archive := of_blocks [hdr_version, zero_block, zero_block]

/-- A name of 100 bytes, all `a`. -/
def name_100 : List Nat := List.replicate 100 97

/-- Header of an empty regular file whose name fills the name field. -/
def hdr_name100 : Header :=
  mk_header name_100 mode_644 size_0 [48, 50, 54, 52, 50, 49, 0, 32] 48 [] TMAGIC [48, 48]

/-- One regular file with a 100-byte name, followed by two zero blocks. -/
def ex_name100 : Archive := of_blocks [hdr_name100, zero_block, zero_block]

/-- Header of a symbolic link `l` to `t`. -/
def hdr_symlink : Header :=
  mk_header [108] [48, 48, 48, 48, 55, 55, 55] size_0 [48, 48, 52, 48, 50, 54, 0, 32] 50 [116]
    TMAGIC [48, 48]

/-- The symbolic link `l`, followed by two zero blocks. -/
def ex_symlink : Archive := of_blocks [hdr_symlink, zero_block, zero_block]

/-- A path of 99 bytes, all `a`. -/
def path_99 : List Nat := List.replicate 99 97

/-- Header of a directory whose name, `path_99` followed by `/`, fills the name
field. -/
def hdr_dir100 : Header :=
  mk_header (path_99 ++ [47]) mode_755 size_0 [48, 50, 54, 51, 52, 55, 0, 32] 53 [] TMAGIC [48, 48]

/-- One directory with a 100-byte name, followed by two zero blocks. -/
def ex_dir100 : Archive := of_blocks [hdr_dir100, zero_block, zero_block]

/-- Header of the empty regular file `a`. -/
def hdr_a : Header :=
  mk_header [97] mode_644 size_0 [48, 48, 51, 54, 49, 54, 0, 32] 48 [] TMAGIC [48, 48]
/-- Header of the empty regular file `b`. -/
def hdr_b : Header :=
  mk_header [98] mode_644 size_0 [48, 48, 51, 54, 49, 55, 0, 32] 48 [] TMAGIC [48, 48]
/-- Header of the directory `c/`. -/
def hdr_c : Header :=
  mk_header [99, 47] mode_755 size_0 [48, 48, 51, 55, 48, 55, 0, 32] 53 [] TMAGIC [48, 48]
/-- Header of the empty regular file `c/d`. -/
def hdr_cd : Header :=
  mk_header [99, 47, 100] mode_644 size_0 [48, 48, 52, 48, 52, 51, 0, 32] 48 [] TMAGIC [48, 48]
/-- Header of the directory `e/`. -/
def hdr_e : Header :=
  mk_header [101, 47] mode_755 size_0 [48, 48, 51, 55, 49, 49, 0, 32] 53 [] TMAGIC [48, 48]

/-- The archive with entries `a`, `b`, `c/`, `c/d`, `e/`. -/
def ex_tree : Archive :=
  of_blocks [hdr_a, hdr_b, hdr_c, hdr_cd, hdr_e, zero_block, zero_block]

/-- Header of the empty regular file `/x`. -/
def hdr_abs : Header :=
  mk_header [47, 120] mode_644 size_0 [48, 48, 51, 55, 50, 52, 0, 32] 48 [] TMAGIC [48, 48]

/-- The archive with the single entry `/x`. -/
def ex_abs : Archive := of_blocks [hdr_abs, zero_block, zero_block]

/-- Header of the empty regular file `cat`. -/
def hdr_cat : Header :=
  mk_header [99, 97, 116] mode_644 size_0 [48, 48, 52, 49, 52, 53, 0, 32] 48 [] TMAGIC [48, 48]

/-- The archive with entries `c/` and `cat`. -/
def ex_prefix : Archive := of_blocks [hdr_c, hdr_cat, zero_block, zero_block]

/-- Two zero blocks: the empty archive. -/
def ex_empty : Archive := of_blocks [zero_block, zero_block]

/-- An archive of 2^31 + 2048 bytes: the header of `big`, its 2^31 data bytes
(all zero), the header of the empty file `a`, and two zero blocks. -/
def ex_big_then_a : Archive :=
  ⟨512 + 2147483648 + 512 + 1024, fun i =>
    if i < 512 then hdr_big i
    else if 2147484160 ≤ i ∧ i < 2147484672 then hdr_a (i - 2147484160)
    else 0⟩

/-- Header of a symbolic link `l` to `c/`. -/
def hdr_l_to_c : Header :=
  mk_header [108] [48, 48, 48, 48, 55, 55, 55] size_0 [48, 48, 52, 48, 54, 52, 0, 32] 50 [99, 47]
    TMAGIC [48, 48]

/-- The archive with entries `a`, `c/`, `c/d` and the symbolic link `l` to
`c/`. -/
def ex_link : Archive := of_blocks [hdr_a, hdr_c, hdr_cd, hdr_l_to_c, zero_block, zero_block]

/-! ## Scanning lemmas -/

theorem skip_long_of_nonneg (s : Int) (h0 : 0 ≤ s) (h1 : s + 511 < 9223372036854775808) :
    skip_long s = ((s.toNat + 511) / 512 * 512 : Nat) := by
  unfold skip_long wrap_long
  have e1 : (s + 511 + 9223372036854775808) % 18446744073709551616 - 9223372036854775808
      = s + 511 := by omega
  rw [e1, Int.tdiv_eq_ediv (by omega) (by norm_num)]
  push_cast
  omega

theorem lseek_cur_skip_long (pos : Nat) (hdr : Header) (h : size_ok hdr = true) :
    lseek_cur (pos + 512) (skip_long (TAR_INT hdr off_size))
      = pos + 512 + data_blocks (size_field hdr) * 512 := by
  simp only [size_ok, Bool.and_eq_true, decide_eq_true_eq] at h
  rw [skip_long_of_nonneg _ h.1 h.2]
  unfold lseek_cur data_blocks size_field
  generalize (TAR_INT hdr off_size).toNat = n
  have : (0:Int) ≤ ((pos + 512 : Nat) : Int) + ((n + 511) / 512 * 512 : Nat) := by positivity
  rw [if_pos this]
  omega

theorem read_header_some_le {a : Archive} {pos : Nat} {hdr : Header}
    (h : read_header a pos = some hdr) : pos + 512 ≤ a.size := by
  unfold read_header at h
  by_contra hc
  rw [if_neg hc] at h
  exact Option.noConfusion h

theorem list_loop_spec (a : Archive) (P : List Nat) (cap : Nat) :
    ∀ (fuel pos count : Nat) (writes : List (Nat × List Nat)) (pe : Bool),
      a.size - pos < fuel →
      (∀ h ∈ entries_from fuel a pos, size_ok h = true) →
      ∃ p', list_loop fuel a pos P cap count writes pe =
        some ⟨if (pe || (entries_from fuel a pos).any (fun h => is_listed h P || names_path h P))
                then 1 else 0,
              count + min (cap - count)
                ((entries_from fuel a pos).filter (fun h => is_listed h P)).length,
              writes ++ ((((entries_from fuel a pos).filter (fun h => is_listed h P)).map
                (fun h => strncpy100 (mem h off_name))).take (cap - count)).enumFrom count,
              p'⟩ := by
  intro fuel
  induction fuel with
  | zero => intro pos count writes pe h; exact absurd h (Nat.not_lt_zero _)
  | succ n ih =>
    intro pos count writes pe hfuel hsz
    unfold list_loop
    unfold entries_from at hsz ⊢
    cases hr : read_header a pos with
    | none => exact ⟨short_read_pos a pos, by simp⟩
    | some hdr =>
      simp only [hr] at hsz ⊢
      by_cases h0 : hdr 0 = 0
      · exact ⟨pos + 512, by simp [h0]⟩
      · simp only [h0, if_false] at hsz ⊢
        have hle := read_header_some_le hr
        have hok : size_ok hdr = true := hsz hdr (List.mem_cons_self _ _)
        have hrest : ∀ h ∈ entries_from n a (pos + 512 + data_blocks (size_field hdr) * 512),
            size_ok h = true := fun h hh => hsz h (List.mem_cons_of_mem _ hh)
        have hfuel2 : a.size - (pos + 512 + data_blocks (size_field hdr) * 512) < n := by omega
        rw [lseek_cur_skip_long pos hdr hok]
        by_cases hl : is_listed hdr P = true
        · by_cases hc : count < cap
          · obtain ⟨p', hp'⟩ := ih _ (count + 1)
              (writes ++ [(count, strncpy100 (mem hdr off_name))]) true hfuel2 hrest
            refine ⟨p', ?_⟩
            simp only [hl, hc, if_true]
            rw [hp']
            have e : cap - count = (cap - (count + 1)) + 1 := by omega
            simp [hl, List.filter_cons, e, List.take_succ_cons, List.enumFrom_cons]
            omega
          · obtain ⟨p', hp'⟩ := ih _ count writes true hfuel2 hrest
            refine ⟨p', ?_⟩
            simp only [hl, hc, if_true, if_false]
            rw [hp']
            have e : cap - count = 0 := by omega
            simp [hl, e]
        · obtain ⟨p', hp'⟩ := ih _ count writes
            (if 0 < (cstr P).length ∧ strcmp_eq (mem hdr off_name) P = true then true else pe)
            hfuel2 hrest
          refine ⟨p', ?_⟩
          simp only [hl, if_false]
          rw [hp']
          simp only [Bool.not_eq_true] at hl
          by_cases hx : 0 < (cstr P).length ∧ strcmp_eq (mem hdr off_name) P = true
          · simp [hl, hx, names_path, List.filter_cons]
          · have : names_path hdr P = false := by
              simp only [names_path, Bool.and_eq_false_iff, decide_eq_false_iff_not]
              by_cases h1 : 0 < (cstr P).length
              · right; simpa using fun h => hx ⟨h1, h⟩
              · left; exact h1
            simp [hl, hx, this, List.filter_cons]

theorem entries_from_fuel (a : Archive) :
    ∀ (n m pos : Nat), a.size - pos < n → a.size - pos < m →
      entries_from n a pos = entries_from m a pos := by
  intro n
  induction n with
  | zero => intro m pos h; exact absurd h (Nat.not_lt_zero _)
  | succ n ih =>
    intro m pos hn hm
    cases m with
    | zero => exact absurd hm (Nat.not_lt_zero _)
    | succ m =>
      unfold entries_from
      cases hr : read_header a pos with
      | none => rfl
      | some hdr =>
        have hle := read_header_some_le hr
        by_cases h0 : hdr 0 = 0
        · simp [h0]
        · simp only [h0, if_false]
          rw [ih m _ (by omega) (by omega)]

theorem entries_eq_from (a : Archive) (fuel : Nat) (h : a.size < fuel) :
    entries a = entries_from fuel a 0 :=
  entries_from_fuel a _ _ _ (by omega) (by omega)

theorem entries_from_first_byte (a : Archive) :
    ∀ (n pos : Nat) (h : Header), h ∈ entries_from n a pos → h 0 ≠ 0 := by
  intro n
  induction n with
  | zero => intro pos h hh; simp [entries_from] at hh
  | succ n ih =>
    intro pos h hh
    unfold entries_from at hh
    cases hr : read_header a pos with
    | none => simp [hr] at hh
    | some hdr =>
      simp only [hr] at hh
      by_cases h0 : hdr 0 = 0
      · simp [h0] at hh
      · simp only [h0, if_false, List.mem_cons] at hh
        rcases hh with rfl | hh
        · exact h0
        · exact ih _ h hh

theorem span_length (hdr : Header) : ∀ (n off : Nat), (span hdr off n).length = n := by
  intro n
  induction n with
  | zero => intro off; rfl
  | succ n ih => intro off; simp [span, ih]

theorem span_add (hdr : Header) :
    ∀ (n m off : Nat), span hdr off (n + m) = span hdr off n ++ span hdr (off + n) m := by
  intro n
  induction n with
  | zero => intro m off; simp [span]
  | succ n ih =>
    intro m off
    rw [Nat.succ_add]
    simp only [span, List.cons_append]
    rw [ih m (off + 1)]
    congr 3
    omega

theorem cstr_append_of_lt (l1 l2 : List Nat) (h : (cstr l1).length < l1.length) :
    cstr (l1 ++ l2) = cstr l1 := by
  induction l1 with
  | nil => simp at h
  | cons x xs ih =>
    unfold cstr at h ih ⊢
    by_cases hx : x = 0
    · simp [List.takeWhile, hx]
    · simp only [List.cons_append, List.takeWhile_cons, bne_iff_ne, ne_eq, hx, not_false_eq_true,
        ↓reduceIte, List.length_cons, Nat.add_lt_add_iff_right, List.cons.injEq, true_and] at h ⊢
      exact ih h

theorem cstr_mem_eq_name_field (hdr : Header) (h : (name_field hdr).length < 100) :
    cstr (mem hdr off_name) = name_field hdr := by
  unfold mem name_field off_name at *
  have e : span hdr 0 (512 - 0) = span hdr 0 100 ++ span hdr (0 + 100) 412 := span_add hdr 100 412 0
  rw [e]
  apply cstr_append_of_lt
  rw [span_length]
  exact h

theorem cstr_cons_ne (x : Nat) (xs : List Nat) (hx : x ≠ 0) : cstr (x :: xs) = x :: cstr xs := by
  simp [cstr, List.takeWhile_cons, hx]

theorem cstr_cons_zero (xs : List Nat) : cstr (0 :: xs) = [] := by
  simp [cstr, List.takeWhile_cons]

theorem strchr_spec (hdr : Header) :
    ∀ (n off : Nat), (cstr (span hdr off n)).length < n →
      (match strchr hdr 47 n off with
        | none => true
        | some slash => decide (hdr (slash + 1) = 0))
        = !((cstr (span hdr off n)).dropLast.contains 47) := by
  intro n
  induction n with
  | zero => intro off h; exact absurd h (Nat.not_lt_zero _)
  | succ n ih =>
    intro off h
    unfold strchr
    by_cases h47 : hdr off = 47
    · have hne : hdr off ≠ 0 := by omega
      simp only [span, cstr_cons_ne _ _ hne, List.length_cons, Nat.add_lt_add_iff_right] at h ⊢
      simp only [h47, if_true]
      cases n with
      | zero => exact absurd h (Nat.not_lt_zero _)
      | succ k =>
        by_cases hz : hdr (off + 1) = 0
        · simp [span, hz, cstr_cons_zero]
        · simp [span, hz, cstr_cons_ne _ _ hz]
    · by_cases hz : hdr off = 0
      · simp [span, hz, cstr_cons_zero]
      · simp only [span, cstr_cons_ne _ _ hz, List.length_cons, Nat.add_lt_add_iff_right] at h ⊢
        simp only [h47, hz, if_false]
        rw [ih (off + 1) h]
        cases hr : cstr (span hdr (off + 1) n) with
        | nil => simp
        | cons y ys =>
          have : ¬ (47 = hdr off) := fun e => h47 e.symm
          simp [List.dropLast, this]

theorem is_listed_root (hdr : Header) (h0 : hdr 0 ≠ 0) (hn : (name_field hdr).length < 100) :
    is_listed hdr [] = root_child (drop_leading_slash (name_field hdr)) := by
  have hnf : name_field hdr = hdr 0 :: cstr (span hdr 1 99) := by
    have e : span hdr off_name 100 = hdr 0 :: span hdr 1 99 := rfl
    rw [name_field, e, cstr_cons_ne _ _ h0]
  have hlen : (cstr (span hdr 1 99)).length < 99 := by
    rw [hnf] at hn
    simp only [List.length_cons] at hn
    omega
  by_cases h47 : hdr 0 = 47
  · have e1 : cstr (span hdr 1 511) = cstr (span hdr 1 99) := by
      have e : span hdr 1 (99 + 412) = span hdr 1 99 ++ span hdr (1 + 99) 412 := span_add hdr 99 412 1
      rw [show (511 : Nat) = 99 + 412 from rfl, e]
      exact cstr_append_of_lt _ _ (by rw [span_length]; exact hlen)
    have hs := strchr_spec hdr 511 1 (by rw [e1]; omega)
    rw [e1] at hs
    have hd : drop_leading_slash (name_field hdr) = cstr (span hdr 1 99) := by
      simp [drop_leading_slash, hnf, h47]
    have e2 : span hdr 1 99 = hdr 1 :: span hdr 2 98 := rfl
    rw [hd]
    unfold is_listed root_child
    simp only [cstr, List.takeWhile_nil, List.length_nil, true_or, if_true, off_name, Nat.add_zero,
      h47, Nat.zero_add, Nat.reduceSub]
    simp only [cstr] at hs
    by_cases hz : hdr 1 = 0
    · rw [e2]
      simp [hz, List.takeWhile_cons]
    · simp only [ne_eq, hz, not_false_eq_true, if_true]
      rw [hs, e2]
      simp [List.takeWhile_cons, hz]
  · have e1 : cstr (span hdr 0 512) = name_field hdr := cstr_mem_eq_name_field hdr hn
    have hs := strchr_spec hdr 512 0 (by rw [e1]; omega)
    rw [e1] at hs
    have hd : drop_leading_slash (name_field hdr) = name_field hdr := by
      have : ¬ (hdr 0 = 47) := h47
      simp [drop_leading_slash, hnf, this]
    rw [hd]
    unfold is_listed root_child
    simp only [cstr, List.takeWhile_nil, List.length_nil, true_or, if_true, off_name, Nat.add_zero,
      h47, if_false, Nat.sub_zero, ne_eq, h0, not_false_eq_true]
    rw [hs]
    simp [hnf]

theorem find_link_spec (a : Archive) (cur : List Nat) :
    ∀ (fuel pos : Nat), a.size - pos < fuel →
      (∀ h ∈ entries_from fuel a pos, size_ok h = true) →
      find_link fuel a pos cur =
        some (((entries_from fuel a pos).find?
          (fun h => strcmp_eq (mem h off_name) cur && decide (h off_typeflag = SYMTYPE))).map
            (fun h => strncpy100 (mem h off_linkname))) := by
  intro fuel
  induction fuel with
  | zero => intro pos h; exact absurd h (Nat.not_lt_zero _)
  | succ n ih =>
    intro pos hfuel hsz
    unfold find_link
    unfold entries_from at hsz ⊢
    cases hr : read_header a pos with
    | none => simp
    | some hdr =>
      simp only [hr] at hsz ⊢
      by_cases h0 : hdr 0 = 0
      · simp [h0]
      · simp only [h0, if_false] at hsz ⊢
        have hle := read_header_some_le hr
        have hok : size_ok hdr = true := hsz hdr (List.mem_cons_self _ _)
        have hrest : ∀ h ∈ entries_from n a (pos + 512 + data_blocks (size_field hdr) * 512),
            size_ok h = true := fun h hh => hsz h (List.mem_cons_of_mem _ hh)
        rw [lseek_cur_skip_long pos hdr hok]
        by_cases hm : strcmp_eq (mem hdr off_name) cur = true ∧ hdr off_typeflag = SYMTYPE
        · simp [hm, List.find?_cons]
        · rw [if_neg hm, ih _ (by omega) hrest]
          have : (strcmp_eq (mem hdr off_name) cur && decide (hdr off_typeflag = SYMTYPE)) = false := by
            by_cases h1 : strcmp_eq (mem hdr off_name) cur = true
            · have h2 : ¬ hdr off_typeflag = SYMTYPE := fun h => hm ⟨h1, h⟩
              simp [h2]
            · simp [h1]
          simp [List.find?_cons, this]

theorem strcmp_name_nil (hdr : Header) (h0 : hdr 0 ≠ 0) : strcmp_eq (mem hdr off_name) [] = false := by
  have e : mem hdr off_name = hdr 0 :: span hdr 1 511 := rfl
  simp [strcmp_eq, e, cstr_cons_ne _ _ h0, cstr, h0]

theorem resolve_root (a : Archive) (fuel : Nat) (hfuel : a.size < fuel)
    (hsz : ∀ h ∈ entries a, size_ok h = true) : resolve fuel fuel a [] = some [] := by
  have he := entries_eq_from a fuel hfuel
  rw [he] at hsz
  cases fuel with
  | zero => exact absurd hfuel (Nat.not_lt_zero _)
  | succ n =>
    unfold resolve
    rw [find_link_spec a [] (n + 1) 0 (by omega) hsz]
    have : (entries_from (n + 1) a 0).find?
        (fun h => strcmp_eq (mem h off_name) [] && decide (h off_typeflag = SYMTYPE)) = none := by
      rw [List.find?_eq_none]
      intro h hh
      simp [strcmp_name_nil h (entries_from_first_byte a _ _ h hh)]
    simp [this]


theorem skip_int_of_small (s : Int) (h0 : 0 ≤ s) (h1 : s + 511 < 2147483648) :
    skip_int s = ((s.toNat + 511) / 512 * 512 : Nat) := by
  unfold skip_int wrap_int wrap_long block_size
  have e1 : ((s + 512 + 9223372036854775808) % 18446744073709551616 - 9223372036854775808 - 1
      + 9223372036854775808) % 18446744073709551616 - 9223372036854775808 = s + 511 := by omega
  simp only []
  rw [e1, Int.tdiv_eq_ediv (by omega) (by norm_num)]
  push_cast
  omega

theorem lseek_cur_skip_int (pos : Nat) (hdr : Header) (h : size_fits_int hdr = true) :
    lseek_cur (pos + 512) (skip_int (strtol8 (mem hdr off_size)))
      = pos + 512 + data_blocks (size_field hdr) * 512 := by
  simp only [size_fits_int, Bool.and_eq_true, decide_eq_true_eq, TAR_INT] at h
  rw [skip_int_of_small _ h.1 h.2]
  unfold lseek_cur data_blocks size_field TAR_INT
  generalize (strtol8 (mem hdr off_size)).toNat = n
  have : (0:Int) ≤ ((pos + 512 : Nat) : Int) + ((n + 511) / 512 * 512 : Nat) := by positivity
  rw [if_pos this]
  omega

theorem scan_loop_spec (a : Archive) (skip : Int → Int) (hit : Header → Bool) :
    ∀ (fuel pos : Nat), a.size - pos < fuel →
      (∀ h ∈ entries_from fuel a pos, ∀ q : Nat,
        lseek_cur (q + 512) (skip (strtol8 (mem h off_size)))
          = q + 512 + data_blocks (size_field h) * 512) →
      ∃ p', scan_loop skip hit fuel a pos =
        some ⟨if (entries_from fuel a pos).any hit then 1 else 0, p'⟩ := by
  intro fuel
  induction fuel with
  | zero => intro pos h; exact absurd h (Nat.not_lt_zero _)
  | succ n ih =>
    intro pos hfuel hstep
    unfold scan_loop
    unfold entries_from at hstep ⊢
    cases hr : read_header a pos with
    | none => exact ⟨short_read_pos a pos, by simp⟩
    | some hdr =>
      simp only [hr] at hstep ⊢
      by_cases h0 : hdr 0 = 0
      · exact ⟨pos + 512, by simp [h0]⟩
      · simp only [h0, if_false] at hstep ⊢
        have hle := read_header_some_le hr
        by_cases hh : hit hdr = true
        · exact ⟨pos + 512, by simp [hh]⟩
        · rw [hstep hdr (List.mem_cons_self _ _) pos]
          obtain ⟨p', hp'⟩ := ih (pos + 512 + data_blocks (size_field hdr) * 512) (by omega)
            (fun h hm => hstep h (List.mem_cons_of_mem _ hm))
          refine ⟨p', ?_⟩
          simp only [hh, if_false]
          rw [hp']
          simp [hh]

theorem exists_loop_eq_scan (a : Archive) (path : List Nat) :
    ∀ (fuel pos : Nat), exists_loop fuel a pos path
      = scan_loop skip_int (fun h => strcmp_eq (mem h off_name) path) fuel a pos := by
  intro fuel
  induction fuel with
  | zero => intro pos; rfl
  | succ n ih =>
    intro pos
    unfold exists_loop scan_loop
    cases read_header a pos with
    | none => rfl
    | some hdr => simp only [ih]

theorem is_file_loop_eq_scan (a : Archive) (path : List Nat) :
    ∀ (fuel pos : Nat), is_file_loop fuel a pos path
      = scan_loop skip_int (fun h => strcmp_eq (mem h off_name) path &&
          (decide (h off_typeflag = 48) || decide (h off_typeflag = 0))) fuel a pos := by
  intro fuel
  induction fuel with
  | zero => intro pos; rfl
  | succ n ih =>
    intro pos
    unfold is_file_loop scan_loop
    cases read_header a pos with
    | none => rfl
    | some hdr => simp [ih]

theorem is_symlink_loop_eq_scan (a : Archive) (path : List Nat) :
    ∀ (fuel pos : Nat), is_symlink_loop fuel a pos path
      = scan_loop skip_int (fun h => strcmp_eq (mem h off_name) path &&
          decide (h off_typeflag = 50)) fuel a pos := by
  intro fuel
  induction fuel with
  | zero => intro pos; rfl
  | succ n ih =>
    intro pos
    unfold is_symlink_loop scan_loop
    cases read_header a pos with
    | none => rfl
    | some hdr => simp [ih]

theorem is_dir_loop_eq_scan (a : Archive) (path : List Nat) :
    ∀ (fuel pos : Nat), is_dir_loop fuel a pos path
      = scan_loop skip_long (fun h => decide (strip_slash (cstr_at h off_name) = strip_slash (cstr path)) &&
          decide (h off_typeflag = DIRTYPE)) fuel a pos := by
  intro fuel
  induction fuel with
  | zero => intro pos; rfl
  | succ n ih =>
    intro pos
    unfold is_dir_loop scan_loop
    cases read_header a pos with
    | none => rfl
    | some hdr => simp [ih, TAR_INT]

theorem int_if_ne_zero (b : Bool) : ((if b = true then (1 : Int) else 0) ≠ 0) ↔ b = true := by
  cases b <;> simp

theorem span_eq_map_range (hdr : Header) :
    ∀ (n off : Nat), span hdr off n = (List.range n).map (fun i => hdr (off + i)) := by
  intro n
  induction n with
  | zero => intro off; rfl
  | succ n ih =>
    intro off
    rw [List.range_succ_eq_map, List.map_cons, List.map_map]
    show hdr off :: span hdr (off + 1) n = _
    rw [ih (off + 1)]
    congr 1
    apply List.map_congr_left
    intro i _
    simp only [Function.comp, Nat.succ_eq_add_one]
    congr 1
    omega

theorem span_sum_le (hdr : Header) (hb : ∀ i, hdr i < 256) :
    ∀ (n off : Nat), (span hdr off n).sum ≤ 255 * n := by
  intro n
  induction n with
  | zero => intro off; simp [span]
  | succ n ih =>
    intro off
    have := ih (off + 1)
    have := hb off
    simp only [span, List.sum_cons]
    omega

theorem checksum_fold (hdr : Header) (l : List Nat) :
    ∀ s0 : Nat, s0 < 4294967296 →
      l.foldl (fun sum i => if 148 ≤ i ∧ i < 156 then (sum + 32) % 4294967296
                  else (sum + hdr i) % 4294967296) s0
        = (s0 + (l.map (fun i => if 148 ≤ i ∧ i < 156 then 32 else hdr i)).sum) % 4294967296 := by
  induction l with
  | nil => intro s0 h; simp [Nat.mod_eq_of_lt h]
  | cons i is ih =>
    intro s0 _
    simp only [List.foldl_cons, List.map_cons, List.sum_cons]
    by_cases hc : 148 ≤ i ∧ i < 156
    · simp only [hc, and_self, if_true]
      rw [ih _ (Nat.mod_lt _ (by norm_num))]
      omega
    · simp only [hc, if_false]
      rw [ih _ (Nat.mod_lt _ (by norm_num))]
      omega

theorem checksum_loop_eq_sum (hdr : Header) (hb : ∀ i, hdr i < 256) :
    checksum_loop hdr = chksum_sum hdr := by
  unfold checksum_loop chksum_sum
  rw [checksum_fold hdr _ 0 (by norm_num)]
  have e : List.range 512 = List.range 148 ++ ((List.range 8).map (148 + ·) ++
      (List.range 356).map (156 + ·)) := by
    rw [show (512 : Nat) = 148 + 364 from rfl, List.range_add,
      show (364 : Nat) = 8 + 356 from rfl, List.range_add]
    simp [List.map_append, List.map_map, Function.comp, Nat.add_assoc]
  have e1 : (List.range 148).map (fun i => if 148 ≤ i ∧ i < 156 then 32 else hdr i)
      = span hdr 0 148 := by
    rw [span_eq_map_range]
    apply List.map_congr_left
    intro i hi
    have := List.mem_range.mp hi
    have hc : ¬ (148 ≤ i ∧ i < 156) := by omega
    simp [hc]
  have e2 : ((List.range 8).map (148 + ·)).map (fun i => if 148 ≤ i ∧ i < 156 then 32 else hdr i)
      = List.replicate 8 32 := by
    rw [List.map_map]
    rw [show List.replicate 8 32 = (List.range 8).map (fun _ => 32) from by decide]
    apply List.map_congr_left
    intro i hi
    have := List.mem_range.mp hi
    have hc : 148 ≤ 148 + i ∧ 148 + i < 156 := by omega
    simp [hc]
  have e3 : ((List.range 356).map (156 + ·)).map (fun i => if 148 ≤ i ∧ i < 156 then 32 else hdr i)
      = span hdr 156 356 := by
    rw [span_eq_map_range, List.map_map]
    apply List.map_congr_left
    intro i _
    have hc : ¬ (148 ≤ 156 + i ∧ 156 + i < 156) := by omega
    simp [hc]
  rw [e, List.map_append, List.map_append, e1, e2, e3]
  have b1 := span_sum_le hdr hb 148 0
  have b2 := span_sum_le hdr hb 356 156
  simp only [List.sum_append, List.sum_replicate, smul_eq_mul, Nat.zero_add]
  omega

theorem read_header_byte_lt {a : Archive} {pos : Nat} {hdr : Header}
    (h : read_header a pos = some hdr) (i : Nat) : hdr i < 256 := by
  unfold read_header at h
  by_cases hc : pos + 512 ≤ a.size
  · rw [if_pos hc] at h
    cases h
    by_cases hi : i < 512
    · simp only [hi, if_true]; exact Nat.mod_lt _ (by norm_num)
    · simp [hi]
  · rw [if_neg hc] at h
    exact Option.noConfusion h

theorem conformant_magic (hdr : Header) (h : conformant hdr = true) :
    cstr_at hdr off_magic = TMAGIC := by
  simp only [conformant, Bool.and_eq_true, beq_iff_eq] at h
  have e : mem hdr off_magic = span hdr off_magic 6 ++ span hdr (off_magic + 6) 249 :=
    span_add hdr 6 249 off_magic
  unfold cstr_at
  rw [e, h.1.1]
  rfl

theorem conformant_version (hdr : Header) (h : conformant hdr = true) :
    ¬ (hdr off_version ≠ 48 ∧ hdr (off_version + 1) ≠ 48) := by
  simp only [conformant, Bool.and_eq_true, beq_iff_eq] at h
  have hv := h.1.2
  simp only [span, List.cons.injEq, and_true] at hv
  intro hc
  exact hc.1 hv.1

theorem conformant_chksum (hdr : Header) (hb : ∀ i, hdr i < 256) (h : conformant hdr = true) :
    ¬ ((checksum_loop hdr : Int) ≠ strtol8 (mem hdr off_chksum)) := by
  simp only [conformant, Bool.and_eq_true, beq_iff_eq, TAR_INT] at h
  rw [checksum_loop_eq_sum hdr hb, h.2]
  simp

theorem check_archive_loop_spec (a : Archive) :
    ∀ (fuel pos num : Nat), a.size - pos < fuel →
      (∀ h ∈ entries_from fuel a pos, conformant h = true ∧ size_fits_int h = true) →
      ∃ p', check_archive_loop fuel a pos num =
        some ⟨((num + (entries_from fuel a pos).length : Nat) : Int), p'⟩ := by
  intro fuel
  induction fuel with
  | zero => intro pos num h; exact absurd h (Nat.not_lt_zero _)
  | succ n ih =>
    intro pos num hfuel hc
    unfold check_archive_loop
    unfold entries_from at hc ⊢
    cases hr : read_header a pos with
    | none => exact ⟨short_read_pos a pos, by simp⟩
    | some hdr =>
      simp only [hr] at hc ⊢
      by_cases h0 : hdr 0 = 0
      · exact ⟨pos + 512, by simp [h0]⟩
      · simp only [h0, if_false] at hc ⊢
        have hle := read_header_some_le hr
        have hh := hc hdr (List.mem_cons_self _ _)
        have hm : ¬ (cstr_at hdr off_magic ≠ TMAGIC) := by
          rw [conformant_magic hdr hh.1]; simp
        rw [if_neg hm, if_neg (conformant_version hdr hh.1),
          if_neg (conformant_chksum hdr (read_header_byte_lt hr) hh.1),
          lseek_cur_skip_int pos hdr hh.2]
        obtain ⟨p', hp'⟩ := ih (pos + 512 + data_blocks (size_field hdr) * 512) (num + 1)
          (by omega) (fun h hm => hc h (List.mem_cons_of_mem _ hm))
        refine ⟨p', ?_⟩
        rw [hp']
        simp only [List.length_cons]
        congr 2
        omega

theorem cstr_append_slash (p : List Nat) :
    cstr (p ++ [47]) = cstr p ∨ (cstr p = p ∧ cstr (p ++ [47]) = p ++ [47]) := by
  induction p with
  | nil => right; simp [cstr]
  | cons x xs ih =>
    by_cases hx : x = 0
    · left; subst hx; rw [List.cons_append, cstr_cons_zero, cstr_cons_zero]
    · rw [List.cons_append, cstr_cons_ne _ _ hx, cstr_cons_ne _ _ hx]
      rcases ih with h | ⟨h1, h2⟩
      · left; rw [h]
      · right; rw [h1, h2]; exact ⟨rfl, rfl⟩

theorem strip_slash_append_slash (p : List Nat) : strip_slash (p ++ [47]) = p := by
  unfold strip_slash
  have h1 : 0 < (p ++ [47]).length := by simp
  have h2 : (p ++ [47]).getD ((p ++ [47]).length - 1) 0 = 47 := by
    simp [List.getD_eq_getElem?_getD, List.getElem?_append_right]
  rw [if_pos ⟨h1, h2⟩]
  simp

theorem strip_slash_of_last_ne (p : List Nat) (h : p.getLast? ≠ some 47) : strip_slash p = p := by
  unfold strip_slash
  by_cases hc : 0 < p.length ∧ p.getD (p.length - 1) 0 = 47
  · exfalso
    apply h
    rw [List.getLast?_eq_getElem?]
    have hlt : p.length - 1 < p.length := by omega
    rw [List.getD_eq_getElem?_getD, List.getElem?_eq_getElem hlt] at hc
    rw [List.getElem?_eq_getElem hlt]
    simpa using hc.2
  · rw [if_neg hc]

theorem terminal_from_fuel (a : Archive) :
    ∀ (n m pos : Nat), a.size - pos < n → a.size - pos < m →
      terminal_from n a pos = terminal_from m a pos := by
  intro n
  induction n with
  | zero => intro m pos h; exact absurd h (Nat.not_lt_zero _)
  | succ n ih =>
    intro m pos hn hm
    cases m with
    | zero => exact absurd hm (Nat.not_lt_zero _)
    | succ m =>
      unfold terminal_from
      cases hr : read_header a pos with
      | none => rfl
      | some hdr =>
        have hle := read_header_some_le hr
        by_cases h0 : hdr 0 = 0
        · simp [h0]
        · simp only [h0, if_false]
          rw [ih m _ (by omega) (by omega)]

theorem terminal_from_ge (a : Archive) :
    ∀ (n pos T : Nat), terminal_from n a pos = some T → pos ≤ T := by
  intro n
  induction n with
  | zero => intro pos T h; simp [terminal_from] at h
  | succ n ih =>
    intro pos T h
    unfold terminal_from at h
    cases hr : read_header a pos with
    | none => simp [hr] at h
    | some hdr =>
      simp only [hr] at h
      by_cases h0 : hdr 0 = 0
      · simp only [h0, if_true, Option.some.injEq] at h
        omega
      · simp only [h0, if_false] at h
        have := ih _ T h
        omega

theorem seek_targets_le (a : Archive) :
    ∀ (n pos T : Nat), terminal_from n a pos = some T →
      T + 512 ≤ a.size ∧ ∀ t ∈ seek_targets n a pos, t ≤ T := by
  intro n
  induction n with
  | zero => intro pos T hT; simp [terminal_from] at hT
  | succ n ih =>
    intro pos T hT
    unfold terminal_from at hT
    unfold seek_targets
    cases hr : read_header a pos with
    | none => simp [hr] at hT
    | some hdr =>
      simp only [hr] at hT ⊢
      by_cases h0 : hdr 0 = 0
      · simp only [h0, if_true, Option.some.injEq] at hT ⊢
        subst hT
        exact ⟨read_header_some_le hr, fun t ht => absurd ht (List.not_mem_nil t)⟩
      · simp only [h0, if_false] at hT ⊢
        obtain ⟨h1, h2⟩ := ih _ T hT
        refine ⟨h1, ?_⟩
        intro t ht
        rcases List.mem_cons.mp ht with rfl | ht
        · exact terminal_from_ge a n _ T hT
        · exact h2 t ht

theorem list_loop_pos (a : Archive) (P : List Nat) (cap : Nat) :
    ∀ (fuel pos count : Nat) (writes : List (Nat × List Nat)) (pe : Bool) (r : ListRet) (T : Nat),
      (∀ h ∈ entries_from fuel a pos, size_ok h = true) →
      terminal_from fuel a pos = some T →
      list_loop fuel a pos P cap count writes pe = some r → r.pos = T + 512 := by
  intro fuel
  induction fuel with
  | zero => intro pos count writes pe r T _ hT; simp [terminal_from] at hT
  | succ n ih =>
    intro pos count writes pe r T hsz hT h
    unfold list_loop at h
    unfold terminal_from at hT
    unfold entries_from at hsz
    cases hr : read_header a pos with
    | none => simp [hr] at hT
    | some hdr =>
      simp only [hr] at hT hsz h
      by_cases h0 : hdr 0 = 0
      · simp only [h0, if_true, Option.some.injEq] at hT h
        subst hT
        subst h
        rfl
      · simp only [h0, if_false] at hT hsz h
        have hok : size_ok hdr = true := hsz hdr (List.mem_cons_self _ _)
        rw [lseek_cur_skip_long pos hdr hok] at h
        have hsz2 : ∀ h ∈ entries_from n a (pos + 512 + data_blocks (size_field hdr) * 512),
            size_ok h = true := fun h hh => hsz h (List.mem_cons_of_mem _ hh)
        by_cases hl : is_listed hdr P = true
        · by_cases hlt : count < cap
          · simp only [hl, hlt, if_true] at h
            exact ih _ _ _ _ r T hsz2 hT h
          · simp only [hl, hlt, if_true, if_false] at h
            exact ih _ _ _ _ r T hsz2 hT h
        · simp only [hl, if_false] at h
          exact ih _ _ _ _ r T hsz2 hT h

/-! ## General behaviour of the scanning routines -/

/-- General behaviour of `exists`: on an archive whose entries have names
shorter than 100 bytes and sizes below 2^31 - 511, `exists` called at any read
position returns, and returns nonzero iff some entry has a name byte-exactly
equal to `path`. -/
theorem exists_iff_entry_named (a : Archive) (fuel pos : Nat) (path : List Nat)
    (hfuel : a.size < fuel)
    (hnames : ∀ h ∈ entries a, (name_field h).length < 100)
    (hsizes : ∀ h ∈ entries a, size_fits_int h = true) :
    ∃ r, tar_exists fuel a pos path = some r ∧
      (r.val ≠ 0 ↔ ∃ h ∈ entries a, name_field h = cstr path) := by
  have he := entries_eq_from a fuel hfuel
  obtain ⟨p', hp'⟩ := scan_loop_spec a skip_int (fun h => strcmp_eq (mem h off_name) path) fuel 0
    (by omega) (fun h hh q => lseek_cur_skip_int q h (hsizes h (by rw [he]; exact hh)))
  refine ⟨_, by unfold tar_exists; rw [exists_loop_eq_scan, hp'], ?_⟩
  rw [← he]
  rw [int_if_ne_zero, List.any_eq_true]
  constructor
  · rintro ⟨h, hh, hm⟩
    refine ⟨h, hh, ?_⟩
    rw [← cstr_mem_eq_name_field h (hnames h hh)]
    simpa [strcmp_eq] using hm
  · rintro ⟨h, hh, hm⟩
    refine ⟨h, hh, ?_⟩
    rw [← cstr_mem_eq_name_field h (hnames h hh)] at hm
    simpa [strcmp_eq] using hm

/-- General behaviour of `is_file`: on an archive whose entries have names
shorter than 100 bytes and sizes below 2^31 - 511, `is_file` returns, and
returns nonzero iff some entry has a name byte-exactly equal to `path` and a
typeflag that is `'0'` or NUL. -/
theorem is_file_iff_regular_entry_named (a : Archive) (fuel pos : Nat) (path : List Nat)
    (hfuel : a.size < fuel)
    (hnames : ∀ h ∈ entries a, (name_field h).length < 100)
    (hsizes : ∀ h ∈ entries a, size_fits_int h = true) :
    ∃ r, is_file fuel a pos path = some r ∧
      (r.val ≠ 0 ↔ ∃ h ∈ entries a, name_field h = cstr path ∧
        (typeflag h = 48 ∨ typeflag h = 0)) := by
  have he := entries_eq_from a fuel hfuel
  obtain ⟨p', hp'⟩ := scan_loop_spec a skip_int (fun h => strcmp_eq (mem h off_name) path &&
      (decide (h off_typeflag = 48) || decide (h off_typeflag = 0))) fuel 0
    (by omega) (fun h hh q => lseek_cur_skip_int q h (hsizes h (by rw [he]; exact hh)))
  refine ⟨_, by unfold is_file; rw [is_file_loop_eq_scan, hp'], ?_⟩
  rw [← he]
  rw [int_if_ne_zero, List.any_eq_true]
  simp only [typeflag]
  constructor
  · rintro ⟨h, hh, hm⟩
    refine ⟨h, hh, ?_⟩
    rw [← cstr_mem_eq_name_field h (hnames h hh)]
    simpa [strcmp_eq] using hm
  · rintro ⟨h, hh, hm⟩
    refine ⟨h, hh, ?_⟩
    rw [← cstr_mem_eq_name_field h (hnames h hh)] at hm
    simpa [strcmp_eq] using hm

/-- General behaviour of `is_symlink` when the descriptor stands at offset 0: on
an archive whose entries have names shorter than 100 bytes and sizes below
2^31 - 511, it returns, and returns nonzero iff some entry has a name
byte-exactly equal to `path` and typeflag `'2'`. -/
theorem is_symlink_iff_from_start (a : Archive) (fuel : Nat) (path : List Nat)
    (hfuel : a.size < fuel)
    (hnames : ∀ h ∈ entries a, (name_field h).length < 100)
    (hsizes : ∀ h ∈ entries a, size_fits_int h = true) :
    ∃ r, is_symlink fuel a 0 path = some r ∧
      (r.val ≠ 0 ↔ ∃ h ∈ entries a, name_field h = cstr path ∧ typeflag h = 50) := by
  have he := entries_eq_from a fuel hfuel
  obtain ⟨p', hp'⟩ := scan_loop_spec a skip_int (fun h => strcmp_eq (mem h off_name) path &&
      decide (h off_typeflag = 50)) fuel 0
    (by omega) (fun h hh q => lseek_cur_skip_int q h (hsizes h (by rw [he]; exact hh)))
  refine ⟨_, by unfold is_symlink; rw [is_symlink_loop_eq_scan, hp'], ?_⟩
  rw [← he]
  rw [int_if_ne_zero, List.any_eq_true]
  simp only [typeflag]
  constructor
  · rintro ⟨h, hh, hm⟩
    refine ⟨h, hh, ?_⟩
    rw [← cstr_mem_eq_name_field h (hnames h hh)]
    simpa [strcmp_eq] using hm
  · rintro ⟨h, hh, hm⟩
    refine ⟨h, hh, ?_⟩
    rw [← cstr_mem_eq_name_field h (hnames h hh)] at hm
    simpa [strcmp_eq] using hm

/-- General behaviour of `is_dir`: on an archive whose entries have names
shorter than 100 bytes and non-negative sizes, `is_dir` returns, and returns
nonzero iff some entry has typeflag `'5'` and a name that, one trailing `/`
removed, equals `path` with one trailing `/` removed. -/
theorem is_dir_iff_directory_entry_named (a : Archive) (fuel pos : Nat) (path : List Nat)
    (hfuel : a.size < fuel)
    (hnames : ∀ h ∈ entries a, (name_field h).length < 100)
    (hsizes : ∀ h ∈ entries a, size_ok h = true) :
    ∃ r, is_dir fuel a pos path = some r ∧
      (r.val ≠ 0 ↔ ∃ h ∈ entries a, typeflag h = 53 ∧
        strip_slash (name_field h) = strip_slash (cstr path)) := by
  have he := entries_eq_from a fuel hfuel
  obtain ⟨p', hp'⟩ := scan_loop_spec a skip_long
    (fun h => decide (strip_slash (cstr_at h off_name) = strip_slash (cstr path)) &&
      decide (h off_typeflag = DIRTYPE)) fuel 0
    (by omega) (fun h hh q => lseek_cur_skip_long q h (hsizes h (by rw [he]; exact hh)))
  refine ⟨_, by unfold is_dir; rw [is_dir_loop_eq_scan, hp'], ?_⟩
  rw [← he]
  rw [int_if_ne_zero, List.any_eq_true]
  simp only [typeflag, DIRTYPE, cstr_at]
  constructor
  · rintro ⟨h, hh, hm⟩
    refine ⟨h, hh, ?_⟩
    rw [← cstr_mem_eq_name_field h (hnames h hh)]
    simpa [and_comm] using hm
  · rintro ⟨h, hh, hm⟩
    refine ⟨h, hh, ?_⟩
    rw [← cstr_mem_eq_name_field h (hnames h hh)] at hm
    simpa [and_comm] using hm

/-- General behaviour of `check_archive`: read from offset 0 on an archive whose
entries are all conformant and smaller than 2^31 - 511 bytes, it returns the
number of entries before the first terminal header. -/
theorem check_archive_counts_entries (a : Archive) (fuel : Nat)
    (hfuel : a.size < fuel)
    (hconf : ∀ h ∈ entries a, conformant h = true)
    (hsizes : ∀ h ∈ entries a, size_fits_int h = true) :
    ∃ p', check_archive fuel a 0 = some ⟨((entries a).length : Int), p'⟩ := by
  have he := entries_eq_from a fuel hfuel
  obtain ⟨p', hp'⟩ := check_archive_loop_spec a fuel 0 0 (by omega)
    (fun h hh => ⟨hconf h (by rw [he]; exact hh), hsizes h (by rw [he]; exact hh)⟩)
  refine ⟨p', ?_⟩
  unfold check_archive
  rw [hp', ← he]
  simp

/-- Trailing-slash independence of `is_dir`: for every archive, read position
and fuel, and every path that as a C string does not end in `/`, `is_dir`
gives the same result for the path and for the path followed by `/`. -/
theorem is_dir_trailing_slash_agree (a : Archive) (fuel pos : Nat) (p : List Nat)
    (hlast : (cstr p).getLast? ≠ some 47) :
    is_dir fuel a pos (p ++ [47]) = is_dir fuel a pos p := by
  have hs : strip_slash (cstr (p ++ [47])) = strip_slash (cstr p) := by
    rcases cstr_append_slash p with h | ⟨h1, h2⟩
    · rw [h]
    · rw [h2, strip_slash_append_slash, h1]
      rw [h1] at hlast
      exact (strip_slash_of_last_ne p hlast).symm
  unfold is_dir
  rw [is_dir_loop_eq_scan, is_dir_loop_eq_scan, hs]

/-! ## The general results on an example archive -/

/-- On the archive with entries `a`, `b`, `c/`, `c/d`, `e/`, all conformant,
`check_archive` returns 5. -/
theorem check_archive_counts_entries_on_tree :
    ∃ p', check_archive 3585 ex_tree 0 = some ⟨5, p'⟩ := by
  obtain ⟨p', h⟩ := check_archive_counts_entries ex_tree 3585 (by decide) (by decide!) (by decide!)
  have hl : (entries ex_tree).length = 5 := by decide!
  rw [hl] at h
  exact ⟨p', h⟩

/-- On the same archive `exists` finds `c/d`, wherever the descriptor stands. -/
theorem exists_iff_entry_named_on_tree (pos : Nat) :
    ∃ r, tar_exists 3585 ex_tree pos [99, 47, 100] = some r ∧ r.val ≠ 0 := by
  obtain ⟨r, h1, h2⟩ := exists_iff_entry_named ex_tree 3585 pos [99, 47, 100]
    (by decide) (by decide!) (by decide!)
  exact ⟨r, h1, h2.mpr (by decide!)⟩

/-- On the same archive `is_file` finds the regular file `c/d` and rejects the
directory `c/`. -/
theorem is_file_iff_regular_entry_named_on_tree :
    (∃ r, is_file 3585 ex_tree 0 [99, 47, 100] = some r ∧ r.val ≠ 0) ∧
    (∃ r, is_file 3585 ex_tree 0 [99, 47] = some r ∧ r.val = 0) := by
  obtain ⟨r, h1, h2⟩ := is_file_iff_regular_entry_named ex_tree 3585 0 [99, 47, 100]
    (by decide) (by decide!) (by decide!)
  obtain ⟨r', h1', h2'⟩ := is_file_iff_regular_entry_named ex_tree 3585 0 [99, 47]
    (by decide) (by decide!) (by decide!)
  refine ⟨⟨r, h1, h2.mpr (by decide!)⟩, ⟨r', h1', ?_⟩⟩
  by_contra hne
  exact absurd (h2'.mp hne) (by decide!)

/-- On the archive that holds the symbolic link `l`, `is_symlink` called with
the descriptor at offset 0 finds it. -/
theorem is_symlink_iff_from_start_on_link :
    ∃ r, is_symlink 1537 ex_symlink 0 [108] = some r ∧ r.val ≠ 0 := by
  obtain ⟨r, h1, h2⟩ := is_symlink_iff_from_start ex_symlink 1537 [108]
    (by decide) (by decide!) (by decide!)
  exact ⟨r, h1, h2.mpr (by decide!)⟩

/-- On the archive with entries `a`, `b`, `c/`, `c/d`, `e/`, `is_dir` finds the
directory `c/` under the path `c` and under the path `c/`. -/
theorem is_dir_iff_directory_entry_named_on_tree :
    (∃ r, is_dir 3585 ex_tree 0 [99] = some r ∧ r.val ≠ 0) ∧
    (∃ r, is_dir 3585 ex_tree 0 [99, 47] = some r ∧ r.val ≠ 0) := by
  obtain ⟨r, h1, h2⟩ := is_dir_iff_directory_entry_named ex_tree 3585 0 [99]
    (by decide) (by decide!) (by decide!)
  obtain ⟨r', h1', h2'⟩ := is_dir_iff_directory_entry_named ex_tree 3585 0 [99, 47]
    (by decide) (by decide!) (by decide!)
  exact ⟨⟨r, h1, h2.mpr (by decide!)⟩, ⟨r', h1', h2'.mpr (by decide!)⟩⟩

/-! ## The routines on the example archives -/

/-- C1 (code defect): `ex_big` is conformant (its one header has the right magic,
version and checksum, and the terminal header stands 512 + 2^31 bytes in), so
the count asked for is 1; `check_archive` read from offset 0 returns -1. The
`int` product `nbr_blocks * block_size` wraps to -2^31, the seek fails, and the
first data block is read as a header. -/
theorem check_archive_wraps_on_two_gib_entry :
    (entries ex_big).all conformant = true ∧
    terminal_offset ex_big = some 2147484160 ∧
    (entries ex_big).length = 1 ∧
    skip_int 2147483648 = -2147483648 ∧
    check_archive 5 ex_big 0 = some ⟨-1, 1024⟩ := by
  decide!

/-- C2 (code defect): the one header of `ex_version` has the magic `"ustar"`
followed by NUL, the version `"01"` and the right checksum, so the version
check is the first to fail and -2 is the code asked for; `check_archive` counts
the header and returns 1, because it reports -2 only when both version bytes
differ from `'0'`. -/
theorem check_archive_accepts_version_01 :
    (entries ex_version).map (fun h => span h off_magic 6) = [[117, 115, 116, 97, 114, 0]] ∧
    (entries ex_version).map (fun h => span h off_version 2) = [[48, 49]] ∧
    (entries ex_version).map (fun h => TAR_INT h off_chksum == (chksum_sum h : Int)) = [true] ∧
    check_archive 5 ex_version 0 = some ⟨1, 1024⟩ := by
  decide!

/-- C3 (code defect): the one entry of `ex_name100` has the 100-byte name
`name_100`, which fills the name field; `exists` called with that name returns
0, because `strcmp` reads on from the name field into the mode field. -/
theorem exists_misses_full_length_name :
    (entries ex_name100).map name_field = [name_100] ∧
    name_100.length = 100 ∧
    tar_exists 5 ex_name100 0 name_100 = some ⟨0, 1024⟩ := by
  decide!

/-- C4 (code defect): `ex_symlink` holds the symbolic link `l`; `is_symlink`
finds it when the descriptor stands at offset 0 and returns 0 when it stands
at offset 512, where `exists` leaves it: `is_symlink` scans from the current
position and not from the start of the archive. -/
theorem is_symlink_scans_from_current_position :
    (entries ex_symlink).map (fun h => (name_field h, typeflag h)) = [([108], 50)] ∧
    is_symlink 5 ex_symlink 0 [108] = some ⟨1, 512⟩ ∧
    tar_exists 5 ex_symlink 0 [108] = some ⟨1, 512⟩ ∧
    is_symlink 5 ex_symlink 512 [108] = some ⟨0, 1024⟩ := by
  decide!

/-- C5 (code defect): the one entry of `ex_name100` is a regular file (typeflag
`'0'`) named `name_100`; `is_file` called with that name returns 0, because
`strcmp` reads on from the name field into the mode field. -/
theorem is_file_misses_full_length_name :
    (entries ex_name100).map (fun h => (name_field h, typeflag h)) = [(name_100, 48)] ∧
    is_file 5 ex_name100 0 name_100 = some ⟨0, 1024⟩ := by
  decide!

/-- C6 (code defect): the one entry of `ex_dir100` is a directory (typeflag `'5'`)
named `path_99` followed by `/`; `is_dir` called with the 99-byte path
`path_99` returns 0, because the name is read on into the mode field: the
string copied into `h_name` has 107 bytes. -/
theorem is_dir_misses_full_length_name :
    (entries ex_dir100).map (fun h => (name_field h, typeflag h)) = [(path_99 ++ [47], 53)] ∧
    path_99.length = 99 ∧
    (entries ex_dir100).map (fun h => (cstr_at h off_name).length) = [107] ∧
    is_dir 5 ex_dir100 0 path_99 = some ⟨0, 1024⟩ := by
  decide!

/-- C7 (code defect): `ex_dir100` stores a directory entry named `path_99`
followed by `/`, and `path_99` does not end in `/`; `is_dir` returns 0 both for
`path_99` and for `path_99` followed by `/`. -/
theorem is_dir_pair_misses_full_length_name :
    (entries ex_dir100).map (fun h => (name_field h, typeflag h)) = [(path_99 ++ [47], 53)] ∧
    path_99.getLast? = some 97 ∧
    is_dir 5 ex_dir100 0 path_99 = some ⟨0, 1024⟩ ∧
    is_dir 5 ex_dir100 0 (path_99 ++ [47]) = some ⟨0, 1024⟩ := by
  decide!

/-- C9 (code defect): the entries of `ex_prefix` are `c/` and `cat`; `list`
called with the path `c` writes `cat`, a name that shares the prefix `c` but
has no `/` after it. On the archive with entries `a`, `b`, `c/`, `c/d`, `e/`,
`list` called with `c/` returns 1 and writes `c/d` alone. -/
theorem list_writes_name_sharing_prefix :
    (entries ex_prefix).map name_field = [[99, 47], [99, 97, 116]] ∧
    resolve 5 5 ex_prefix [99] = some [99] ∧
    list 5 ex_prefix 0 (some [99]) 10 = some ⟨1, 1, [(0, [99, 97, 116])], 1536⟩ ∧
    list 10 ex_tree 0 (some [99, 47]) 10 = some ⟨1, 1, [(0, [99, 47, 100])], 3072⟩ := by
  decide!

/-! ## Listing -/

/-- C8 (counterexample): the one entry of `ex_abs` is named `/x`, which has a
`/` that is not its last character and so is no direct child of the root as
the claim words it; `list` called for the root writes it all the same. -/
theorem list_root_writes_absolute_name :
    (entries ex_abs).map name_field = [[47, 120]] ∧
    root_child [47, 120] = false ∧
    list 5 ex_abs 0 none 10 = some ⟨1, 1, [(0, [47, 120])], 1024⟩ := by
  decide!

/-- The root listing of `ex_dir100`: the directory whose name, 99 bytes and a
final `/`, fills the name field is not written, because `strchr` finds the `/`
followed by the first mode digit instead of by a NUL. -/
theorem list_root_misses_full_length_directory :
    (entries ex_dir100).map name_field = [path_99 ++ [47]] ∧
    root_child (path_99 ++ [47]) = true ∧
    list 5 ex_dir100 0 none 10 = some ⟨1, 0, [], 1024⟩ := by
  decide!

/-- C8 (amended): for a NULL or empty path and any capacity, on an archive whose
entries have names shorter than 100 bytes and size fields that decode to a
length between 0 and 2^63 - 512, and whose scan reaches a terminal header at
offset `T`, the data of every entry lies within the file, so every seek of the
scan lands within the file, and `list` returns 1 and writes, in scan order
and at the indices 0, 1, 2, ..., exactly the names of the first `cap` entries
whose name, one leading `/` removed, is non-empty and has no `/` except
possibly as its last character; `*no_entries` is the number of names written,
and the descriptor is left just after the terminal header. -/
theorem list_root_writes_direct_children (a : Archive) (fuel pos cap T : Nat)
    (path : Option (List Nat))
    (hpath : ∀ p, path = some p → cstr p = [])
    (hfuel : a.size < fuel)
    (hnames : ∀ h ∈ entries a, (name_field h).length < 100)
    (hsizes : ∀ h ∈ entries a, size_ok h = true)
    (hT : terminal_offset a = some T) :
    (∀ t ∈ seek_targets (a.size + 1) a 0, t + 512 ≤ a.size) ∧
    list fuel a pos path cap =
      some ⟨1, min cap (root_children a).length, ((root_children a).take cap).enum, T + 512⟩ := by
  have hstart : start_path path = [] := by
    cases path with
    | none => rfl
    | some p => simp [start_path, hpath p rfl]
  have he := entries_eq_from a fuel hfuel
  have hsz2 : ∀ h ∈ entries_from fuel a 0, size_ok h = true := by rw [← he]; exact hsizes
  have hT2 : terminal_from fuel a 0 = some T := by
    rw [← hT]
    exact terminal_from_fuel a _ _ 0 (by omega) (by omega)
  obtain ⟨hTle, hst⟩ := seek_targets_le a (a.size + 1) 0 T hT
  obtain ⟨p', hp'⟩ := list_loop_spec a [] cap fuel 0 0 [] true (by omega) hsz2
  have hpos : p' = T + 512 := list_loop_pos a [] cap fuel 0 0 [] true _ T hsz2 hT2 hp'
  subst hpos
  refine ⟨fun t ht => Nat.le_trans (Nat.add_le_add_right (hst t ht) 512) hTle, ?_⟩
  have hlist : list fuel a pos path cap = list_loop fuel a 0 [] cap 0 [] true := by
    unfold list
    rw [hstart, resolve_root a fuel hfuel hsizes]
    simp [cstr]
  rw [hlist, hp', ← he]
  have hf : (entries a).filter (fun h => is_listed h []) =
      (entries a).filter (fun h => root_child (drop_leading_slash (name_field h))) := by
    apply List.filter_congr
    intro h hh
    exact is_listed_root h (entries_from_first_byte a (a.size + 1) 0 h hh) (hnames h hh)
  have hm : ((entries a).filter (fun h => root_child (drop_leading_slash (name_field h)))).map
      (fun h => strncpy100 (mem h off_name)) = root_children a := by
    unfold root_children
    rw [List.filter_map]
    apply List.map_congr_left
    intro h hh
    have hin : h ∈ entries a := (List.mem_filter.mp hh).1
    unfold strncpy100
    rw [cstr_mem_eq_name_field h (hnames h hin)]
    exact List.take_of_length_le (by have := hnames h hin; omega)
  have hlen : ((entries a).filter (fun h => root_child (drop_leading_slash (name_field h)))).length
      = (root_children a).length := by rw [← hm, List.length_map]
  rw [hf, hm, hlen]
  simp [List.enum, Nat.min_comm]

/-- C8 (witness): on the archive with entries `a`, `b`, `c/`, `c/d`, `e/`, whose
terminal header stands at offset 2560, and with capacity 10, `list` called
with a NULL path returns 1, writes `a`, `b`, `c/`, `e/`, sets `*no_entries` to
4 and leaves the descriptor at offset 3072. -/
theorem list_root_writes_direct_children_witness :
    (∀ p, (none : Option (List Nat)) = some p → cstr p = []) ∧
    ex_tree.size < 3585 ∧
    (∀ h ∈ entries ex_tree, (name_field h).length < 100) ∧
    (∀ h ∈ entries ex_tree, size_ok h = true) ∧
    terminal_offset ex_tree = some 2560 ∧
    seek_targets (ex_tree.size + 1) ex_tree 0 = [512, 1024, 1536, 2048, 2560] ∧
    list 3585 ex_tree 0 none 10 =
      some ⟨1, 4, [(0, [97]), (1, [98]), (2, [99, 47]), (3, [101, 47])], 3072⟩ := by
  have h1 : ∀ p, (none : Option (List Nat)) = some p → cstr p = [] := fun p h => nomatch h
  have h2 : ex_tree.size < 3585 := by decide
  have h3 : ∀ h ∈ entries ex_tree, (name_field h).length < 100 := by decide!
  have h4 : ∀ h ∈ entries ex_tree, size_ok h = true := by decide!
  have h5 : terminal_offset ex_tree = some 2560 := by decide!
  have hc : root_children ex_tree = [[97], [98], [99, 47], [101, 47]] := by decide!
  have hp := (list_root_writes_direct_children ex_tree 3585 0 10 2560 none h1 h2 h3 h4 h5).2
  rw [hc] at hp
  exact ⟨h1, h2, h3, h4, h5, by decide!, hp⟩

/-- C10 (counterexample): the root of `ex_tree` has four direct children; with
capacity 2, `list` writes the first two and sets `*no_entries` to 2, not to
4. -/
theorem list_reports_capacity_not_true_count :
    found_children ex_tree [] = [[97], [98], [99, 47], [101, 47]] ∧
    root_children ex_tree = [[97], [98], [99, 47], [101, 47]] ∧
    list 10 ex_tree 0 none 2 = some ⟨1, 2, [(0, [97]), (1, [98])], 3072⟩ := by
  decide!

/-- C10 (amended): when the listing pass finds more direct children of the
resolved path `P` than the capacity `cap`, on an archive whose size fields
decode to a length between 0 and 2^63 - 512, `list` returns 1, writes only the
first `cap` of them and sets `*no_entries` to `cap`, the number of names
written. -/
theorem list_truncated_reports_capacity (a : Archive) (fuel pos cap : Nat)
    (path : Option (List Nat)) (P : List Nat)
    (hfuel : a.size < fuel)
    (hsizes : ∀ h ∈ entries a, size_ok h = true)
    (hres : resolve fuel fuel a (start_path path) = some P)
    (hmore : cap < (found_children a P).length) :
    ∃ p', list fuel a pos path cap =
      some ⟨1, cap, ((found_children a P).take cap).enum, p'⟩ := by
  have he := entries_eq_from a fuel hfuel
  have hsz2 : ∀ h ∈ entries_from fuel a 0, size_ok h = true := by rw [← he]; exact hsizes
  obtain ⟨p', hp'⟩ := list_loop_spec a P cap fuel 0 0 []
    (decide ((cstr P).length = 0)) (by omega) hsz2
  refine ⟨p', ?_⟩
  unfold list
  rw [hres]
  simp only []
  rw [hp', ← he]
  unfold found_children at hmore ⊢
  rw [List.length_map] at hmore
  have hany : (entries a).any (fun h => is_listed h P || names_path h P) = true := by
    have hpos : 0 < ((entries a).filter (fun h => is_listed h P)).length := by omega
    obtain ⟨h, hh⟩ := List.exists_mem_of_length_pos hpos
    rw [List.any_eq_true]
    exact ⟨h, (List.mem_filter.mp hh).1, by simp [(List.mem_filter.mp hh).2]⟩
  simp [hany, List.enum, Nat.min_eq_left (Nat.le_of_lt hmore)]

/-- C10 (witness): the root of `ex_tree`, which has four direct children, listed
with capacity 2: `a` and `b` are written and `*no_entries` is 2. -/
theorem list_truncated_reports_capacity_witness :
    ex_tree.size < 3585 ∧
    (∀ h ∈ entries ex_tree, size_ok h = true) ∧
    resolve 3585 3585 ex_tree (start_path none) = some [] ∧
    2 < (found_children ex_tree []).length ∧
    ∃ p', list 3585 ex_tree 0 none 2 = some ⟨1, 2, [(0, [97]), (1, [98])], p'⟩ := by
  have h2 : ex_tree.size < 3585 := by decide
  have h4 : ∀ h ∈ entries ex_tree, size_ok h = true := by decide!
  have h5 : resolve 3585 3585 ex_tree (start_path none) = some [] := resolve_root ex_tree 3585 h2 h4
  have h6 : 2 < (found_children ex_tree []).length := by decide!
  have hc : ((found_children ex_tree []).take 2).enum = [(0, [97]), (1, [98])] := by decide!
  obtain ⟨p', hp'⟩ := list_truncated_reports_capacity ex_tree 3585 0 2 none [] h2 h4 h5 h6
  rw [hc] at hp'
  exact ⟨h2, h4, h5, h6, p', hp'⟩

/-! ## Capacity and return value of `list` -/

theorem list_loop_writes_inv (a : Archive) (P : List Nat) (cap : Nat) :
    ∀ (fuel pos count : Nat) (writes : List (Nat × List Nat)) (pe : Bool) (r : ListRet),
      list_loop fuel a pos P cap count writes pe = some r →
      count ≤ cap → writes.map Prod.fst = List.range count →
      r.writes.map Prod.fst = List.range r.no_entries ∧ r.no_entries ≤ cap := by
  intro fuel
  induction fuel with
  | zero => intro pos count writes pe r h; simp [list_loop] at h
  | succ n ih =>
    intro pos count writes pe r h hc hw
    unfold list_loop at h
    cases hr : read_header a pos with
    | none =>
      simp only [hr, Option.some.injEq] at h
      subst h
      exact ⟨hw, hc⟩
    | some hdr =>
      simp only [hr] at h
      by_cases h0 : hdr 0 = 0
      · simp only [h0, if_true, Option.some.injEq] at h
        subst h
        exact ⟨hw, hc⟩
      · simp only [h0, if_false] at h
        by_cases hl : is_listed hdr P = true
        · by_cases hlt : count < cap
          · simp only [hl, hlt, if_true] at h
            refine ih _ _ _ _ r h hlt ?_
            rw [List.map_append, hw, List.range_succ]
            rfl
          · simp only [hl, hlt, if_true, if_false] at h
            exact ih _ _ _ _ r h hc hw
        · simp only [hl, if_false] at h
          exact ih _ _ _ _ r h hc hw

theorem list_returns_when_resolved (a : Archive) (fuel pos cap : Nat) (path : Option (List Nat))
    (P : List Nat) (hfuel : a.size < fuel) (hsizes : ∀ h ∈ entries a, size_ok h = true)
    (hres : resolve fuel fuel a (start_path path) = some P) :
    ∃ r, list fuel a pos path cap = some r := by
  obtain ⟨p', hp'⟩ := list_loop_spec a P cap fuel 0 0 []
    (decide ((cstr P).length = 0)) (by omega) (by rw [← entries_eq_from a fuel hfuel]; exact hsizes)
  exact ⟨_, by unfold list; rw [hres]; exact hp'⟩

/-- C11: whenever `list` returns, for every archive, path and capacity `cap`,
the writes it made went to `entries[0]`, `entries[1]`, ... in this order, each
index below `cap`, and the final `*no_entries` is the number of writes, which
is at most `cap`. -/
theorem list_writes_within_capacity (fuel : Nat) (a : Archive) (pos : Nat)
    (path : Option (List Nat)) (cap : Nat) (r : ListRet)
    (h : list fuel a pos path cap = some r) :
    (∀ w ∈ r.writes, w.1 < cap) ∧
    r.no_entries = r.writes.length ∧
    r.no_entries ≤ cap ∧
    r.writes.map Prod.fst = List.range r.no_entries := by
  unfold list at h
  cases hres : resolve fuel fuel a (start_path path) with
  | none => simp [hres] at h
  | some P =>
    simp only [hres] at h
    obtain ⟨h1, h2⟩ := list_loop_writes_inv a P cap fuel 0 0 [] _ r h (Nat.zero_le _) rfl
    have hlen : r.no_entries = r.writes.length := by
      have := congrArg List.length h1
      simpa using this.symm
    refine ⟨?_, hlen, h2, h1⟩
    intro w hw
    have hm : w.1 ∈ r.writes.map Prod.fst := List.mem_map_of_mem _ hw
    rw [h1] at hm
    have := List.mem_range.mp hm
    omega

/-- C11 (witness): the root of the archive with entries `a`, `b`, `c/`, `c/d`,
`e/` listed with capacity 2. -/
theorem list_writes_within_capacity_witness :
    list 10 ex_tree 0 none 2 = some ⟨1, 2, [(0, [97]), (1, [98])], 3072⟩ ∧
    (∀ w ∈ [(0, [97]), (1, ([98] : List Nat))], w.1 < 2) ∧
    (2 : Nat) = [(0, [97]), (1, ([98] : List Nat))].length ∧
    (2 : Nat) ≤ 2 ∧
    [(0, [97]), (1, ([98] : List Nat))].map Prod.fst = List.range 2 := by
  have h : list 10 ex_tree 0 none 2 = some ⟨1, 2, [(0, [97]), (1, [98])], 3072⟩ := by decide!
  exact ⟨h, list_writes_within_capacity 10 ex_tree 0 none 2 _ h⟩

/-- C12 (code defect): on the archive with entries `a`, `b`, `c/`, `c/d`, `e/`, where `a` is
a regular file, there is no directory entry at `a` and no entry under `a`
(`is_dir` returns 0 for `a`), and `list` called with the path `a` and capacity
10 returns 1, with `*no_entries` set to 0 and nothing written. -/
theorem list_returns_one_for_regular_file :
    (entries ex_tree).map name_field = [[97], [98], [99, 47], [99, 47, 100], [101, 47]] ∧
    (entries ex_tree).map typeflag = [48, 48, 53, 48, 53] ∧
    find_link 10 ex_tree 0 [97] = some none ∧
    is_dir 10 ex_tree 0 [97] = some ⟨0, 3072⟩ ∧
    list 10 ex_tree 0 (some [97]) 10 = some ⟨1, 0, [], 3072⟩ := by
  decide!

/-- C18 (code defect): on the archive with entries `a`, `b`, `c/`, `c/d`, `e/`,
the directory `e/` has no entry beneath it and no symbolic link is named `e`;
`is_dir` returns 1 for the path `e`, `list` returns 1 for the path `e/` and,
listing `c/d`, for the path `c`, and `list` called with the path `e` and
capacity 10 returns 0, with `*no_entries` set to 0. -/
theorem list_misses_empty_directory_without_slash :
    (entries ex_tree).map name_field = [[97], [98], [99, 47], [99, 47, 100], [101, 47]] ∧
    find_link 10 ex_tree 0 [101] = some none ∧
    is_dir 10 ex_tree 0 [101] = some ⟨1, 2560⟩ ∧
    list 10 ex_tree 0 (some [101, 47]) 10 = some ⟨1, 0, [], 3072⟩ ∧
    list 10 ex_tree 0 (some [99]) 10 = some ⟨1, 1, [(0, [99, 47, 100])], 3072⟩ ∧
    list 10 ex_tree 0 (some [101]) 10 = some ⟨0, 0, [], 3072⟩ := by
  decide!

/-! ## Symbolic links in `list` -/

theorem cstr_idem (s : List Nat) : cstr (cstr s) = cstr s := by
  induction s with
  | nil => rfl
  | cons x xs ih =>
    by_cases hx : x = 0
    · subst hx; rw [cstr_cons_zero]; rfl
    · rw [cstr_cons_ne _ _ hx, cstr_cons_ne _ _ hx, ih]

theorem cstr_eq_of_append (l1 l2 L : List Nat) (h : cstr (l1 ++ l2) = L)
    (hl : L.length < l1.length) : cstr l1 = L := by
  induction l1 generalizing L with
  | nil => simp at hl
  | cons x xs ih =>
    by_cases hx : x = 0
    · subst hx
      rw [List.cons_append, cstr_cons_zero] at h
      rw [cstr_cons_zero, h]
    · rw [List.cons_append, cstr_cons_ne _ _ hx] at h
      rw [cstr_cons_ne _ _ hx]
      cases L with
      | nil => exact absurd h (by simp)
      | cons y ys =>
        simp only [List.cons.injEq] at h
        simp only [List.length_cons, Nat.add_lt_add_iff_right] at hl
        rw [h.1, ih ys h.2 hl]

theorem cstr_mem_name_iff (h : Header) (L : List Nat) (hl : L.length < 100) :
    cstr (mem h off_name) = L ↔ name_field h = L := by
  have e : mem h off_name = span h off_name 100 ++ span h (off_name + 100) 412 :=
    span_add h 100 412 off_name
  constructor
  · intro hc
    rw [e] at hc
    exact cstr_eq_of_append _ _ L hc (by rw [span_length]; exact hl)
  · intro hn
    rw [← hn]
    exact cstr_mem_eq_name_field h (by rw [hn]; exact hl)

theorem cstr_mem_linkname (h : Header) (hl : (linkname_field h).length < 100) :
    cstr (mem h off_linkname) = linkname_field h := by
  have e : mem h off_linkname = span h off_linkname 100 ++ span h (off_linkname + 100) 255 :=
    span_add h 100 255 off_linkname
  rw [e]
  exact cstr_append_of_lt _ _ (by rw [span_length]; exact hl)

theorem find?_congr_mem {α : Type} (l : List α) (p q : α → Bool) (h : ∀ x ∈ l, p x = q x) :
    l.find? p = l.find? q := by
  induction l with
  | nil => rfl
  | cons x xs ih =>
    simp only [List.find?_cons]
    rw [h x (List.mem_cons_self _ _), ih (fun y hy => h y (List.mem_cons_of_mem _ hy))]

theorem find_link_first (a : Archive) (fuel : Nat) (L : List Nat)
    (hfuel : a.size < fuel) (hsizes : ∀ h ∈ entries a, size_ok h = true)
    (hcL : cstr L = L) (hl : L.length < 100) :
    find_link fuel a 0 L = some (((entries a).find? (is_link_named L)).map
      (fun h => strncpy100 (mem h off_linkname))) := by
  have he := entries_eq_from a fuel hfuel
  rw [find_link_spec a L fuel 0 (by omega) (by rw [← he]; exact hsizes), ← he]
  congr 2
  apply find?_congr_mem
  intro h _
  unfold is_link_named strcmp_eq typeflag SYMTYPE
  rw [hcL]
  by_cases ht : h off_typeflag = 50
  · by_cases hc : cstr (mem h off_name) = L
    · have hn := (cstr_mem_name_iff h L hl).mp hc
      rw [hc, hn, ht]
      rfl
    · have hn : name_field h ≠ L := fun hn => hc ((cstr_mem_name_iff h L hl).mpr hn)
      have e1 : (cstr (mem h off_name) == L) = false := by simpa using hc
      have e2 : (name_field h == L) = false := by simpa using hn
      rw [e1, e2]
      rfl
  · simp [ht]

theorem resolve_mono (a : Archive) (fuel : Nat) :
    ∀ (n : Nat) (c P : List Nat), resolve n fuel a c = some P → resolve (n + 1) fuel a c = some P := by
  intro n
  induction n with
  | zero => intro c P h; simp [resolve] at h
  | succ n ih =>
    intro c P h
    unfold resolve at h ⊢
    cases hf : find_link fuel a 0 c with
    | none => simp [hf] at h
    | some x =>
      cases x with
      | none => simpa [hf] using h
      | some t =>
        simp only [hf] at h ⊢
        exact ih t P h

theorem link_entry_facts (a : Archive) (L T : List Nat)
    (hL : ((entries a).find? (is_link_named L)).map linkname_field = some T) :
    ∃ h, (entries a).find? (is_link_named L) = some h ∧ h ∈ entries a ∧
      name_field h = L ∧ linkname_field h = T ∧ L ≠ [] ∧ cstr L = L ∧ cstr T = T := by
  cases hf : (entries a).find? (is_link_named L) with
  | none => simp [hf] at hL
  | some h =>
    simp only [hf, Option.map_some', Option.some.injEq] at hL
    have hmem : h ∈ entries a := List.mem_of_find?_eq_some hf
    have hp : is_link_named L h = true := List.find?_some hf
    have hn : name_field h = L := by
      simp only [is_link_named, Bool.and_eq_true, beq_iff_eq] at hp
      exact hp.1
    have h0 := entries_from_first_byte a (a.size + 1) 0 h hmem
    have hne : L ≠ [] := by
      rw [← hn]
      have e : span h off_name 100 = h 0 :: span h 1 99 := rfl
      rw [name_field, e, cstr_cons_ne _ _ h0]
      simp
    refine ⟨h, rfl, hmem, hn, hL, hne, ?_, ?_⟩
    · rw [← hn, name_field, cstr_idem]
    · rw [← hL, linkname_field, cstr_idem]

theorem start_path_of_cstr (p : List Nat) (hc : cstr p = p) (hl : p.length < 100) :
    start_path (some p) = p := by
  simp only [start_path, strncpy100, hc]
  by_cases h0 : p.length = 0
  · simp [h0, List.length_eq_zero.mp h0]
  · simp only [h0, if_false]
    exact List.take_of_length_le (by omega)

theorem find_link_link_entry_eq (a : Archive) (fuel : Nat) (L T : List Nat)
    (hfuel : a.size < fuel)
    (hsizes : ∀ h ∈ entries a, size_ok h = true)
    (hL : ((entries a).find? (is_link_named L)).map linkname_field = some T)
    (hlenL : L.length < 100) (hlenT : T.length < 100) :
    find_link fuel a 0 L = some (some T) := by
  obtain ⟨h, hf, _, _, hT, _, hcL, _⟩ := link_entry_facts a L T hL
  rw [find_link_first a fuel L hfuel hsizes hcL hlenL, hf]
  simp only [Option.map_some', Option.some.injEq]
  unfold strncpy100
  rw [cstr_mem_linkname h (by rw [hT]; exact hlenT), hT]
  exact List.take_of_length_le (by omega)

theorem find_link_fuel_eq (a : Archive) (c : List Nat) (f1 f2 : Nat)
    (h1 : a.size < f1) (h2 : a.size < f2)
    (hsizes : ∀ h ∈ entries a, size_ok h = true) :
    find_link f1 a 0 c = find_link f2 a 0 c := by
  have e1 := entries_eq_from a f1 h1
  have e2 := entries_eq_from a f2 h2
  rw [find_link_spec a c f1 0 (by omega) (by rw [← e1]; exact hsizes),
    find_link_spec a c f2 0 (by omega) (by rw [← e2]; exact hsizes), ← e1, ← e2]

theorem resolve_inner_eq (a : Archive) (f1 f2 : Nat)
    (h1 : a.size < f1) (h2 : a.size < f2)
    (hsizes : ∀ h ∈ entries a, size_ok h = true) :
    ∀ (n : Nat) (c : List Nat), resolve n f1 a c = resolve n f2 a c := by
  intro n
  induction n with
  | zero => intro c; rfl
  | succ n ih =>
    intro c
    unfold resolve
    rw [find_link_fuel_eq a c f1 f2 h1 h2 hsizes]
    cases find_link f2 a 0 c with
    | none => rfl
    | some x =>
      cases x with
      | none => rfl
      | some t => exact ih t

/-- C13: in an archive whose size fields decode to a length between 0 and
2^63 - 512, let the first entry named `L` with typeflag `'2'` have the link
target `T` (both shorter than 100 bytes), and let the resolution started from
`T` end. Then `list` called with `T` returns, and `list` called with `L` and
the same capacity returns the same status, the same `*no_entries` and the same
writes; every name written is the name stored in an entry of the archive. -/
theorem list_through_symlink (a : Archive) (fuel pos pos2 cap : Nat) (L T P : List Nat)
    (hfuel : a.size < fuel)
    (hsizes : ∀ h ∈ entries a, size_ok h = true)
    (hL : ((entries a).find? (is_link_named L)).map linkname_field = some T)
    (hlenL : L.length < 100) (hlenT : T.length < 100)
    (hchain : resolve fuel fuel a T = some P) :
    ∃ r, list (fuel + 1) a pos (some T) cap = some r ∧
      list (fuel + 1) a pos2 (some L) cap = some r ∧
      ∀ w ∈ r.writes, ∃ h ∈ entries a, w.2 = strncpy100 (mem h off_name) := by
  obtain ⟨_, _, _, _, _, _, hcL, hcT⟩ := link_entry_facts a L T hL
  have hf1 : a.size < fuel + 1 := by omega
  have hT1 : resolve (fuel + 1) (fuel + 1) a T = some P := by
    apply resolve_mono
    rw [← resolve_inner_eq a fuel (fuel + 1) hfuel hf1 hsizes]
    exact hchain
  have hL1 : resolve (fuel + 1) (fuel + 1) a L = some P := by
    rw [resolve, find_link_link_entry_eq a (fuel + 1) L T hf1 hsizes hL hlenL hlenT]
    simp only []
    rw [← resolve_inner_eq a fuel (fuel + 1) hfuel hf1 hsizes]
    exact hchain
  have he := entries_eq_from a (fuel + 1) hf1
  obtain ⟨p', hp'⟩ := list_loop_spec a P cap (fuel + 1) 0 0 []
    (decide ((cstr P).length = 0)) (by omega) (by rw [← he]; exact hsizes)
  have hex : ∃ r, list_loop (fuel + 1) a 0 P cap 0 [] (decide ((cstr P).length = 0)) = some r ∧
      ∀ w ∈ r.writes, ∃ h ∈ entries a, w.2 = strncpy100 (mem h off_name) := by
    refine ⟨_, hp', ?_⟩
    intro w hw
    simp only [List.nil_append] at hw
    have hm := List.mem_map_of_mem Prod.snd hw
    rw [List.enumFrom_map_snd] at hm
    have hm2 := List.mem_of_mem_take hm
    obtain ⟨h, hh, he2⟩ := List.mem_map.mp hm2
    rw [← he] at hh
    exact ⟨h, (List.mem_filter.mp hh).1, he2.symm⟩
  obtain ⟨r, hr, hw⟩ := hex
  refine ⟨r, ?_, ?_, hw⟩
  · unfold list
    rw [start_path_of_cstr T hcT hlenT, hT1]
    exact hr
  · unfold list
    rw [start_path_of_cstr L hcL hlenL, hL1]
    exact hr

/-- C13 (witness): in the archive with entries `a`, `c/`, `c/d` and the
symbolic link `l` to `c/`, `list` called with `l` and `list` called with `c/`
both return 1 and write `c/d`. -/
theorem list_through_symlink_witness :
    ex_link.size < 3073 ∧
    (∀ h ∈ entries ex_link, size_ok h = true) ∧
    ((entries ex_link).find? (is_link_named [108])).map linkname_field = some [99, 47] ∧
    resolve 3073 3073 ex_link [99, 47] = some [99, 47] ∧
    ∃ r, list 3074 ex_link 0 (some [99, 47]) 10 = some r ∧
      list 3074 ex_link 0 (some [108]) 10 = some r ∧
      r.val = 1 ∧ r.no_entries = 1 ∧ r.writes = [(0, [99, 47, 100])] := by
  have h1 : ex_link.size < 3073 := by decide
  have h2 : ∀ h ∈ entries ex_link, size_ok h = true := by decide!
  have h3 : ((entries ex_link).find? (is_link_named [108])).map linkname_field
      = some [99, 47] := by decide!
  have h4 : resolve 3073 3073 ex_link [99, 47] = some [99, 47] := by decide!
  obtain ⟨r, hr1, hr2, _⟩ := list_through_symlink ex_link 3073 0 0 10 [108] [99, 47] [99, 47]
    h1 h2 h3 (by decide) (by decide) h4
  have h5 : list 3074 ex_link 0 (some [99, 47]) 10 = some ⟨1, 1, [(0, [99, 47, 100])], 2560⟩ := by
    decide!
  have hr : r = ⟨1, 1, [(0, [99, 47, 100])], 2560⟩ := by
    rw [h5] at hr1
    exact (Option.some.inj hr1).symm
  exact ⟨h1, h2, h3, h4, r, hr1, hr2, by rw [hr], by rw [hr], by rw [hr]⟩

/-! ## Layout of `add_file` -/

theorem lseek_cur_back (pos : Nat) : lseek_cur (pos + 512) (-512) = pos := by
  unfold lseek_cur
  have : (0 : Int) ≤ ((pos + 512 : Nat) : Int) + -512 := by push_cast; omega
  rw [if_pos this]
  push_cast
  omega

theorem find_end_spec (a : Archive) :
    ∀ (fuel pos T : Nat), a.size - pos < fuel →
      (∀ h ∈ entries_from fuel a pos, size_ok h = true) →
      terminal_from fuel a pos = some T →
      find_end fuel a pos = some T ∧ T + 512 ≤ a.size := by
  intro fuel
  induction fuel with
  | zero => intro pos T h; exact absurd h (Nat.not_lt_zero _)
  | succ n ih =>
    intro pos T hfuel hsz hT
    unfold find_end
    unfold terminal_from at hT
    unfold entries_from at hsz
    cases hr : read_header a pos with
    | none => simp [hr] at hT
    | some hdr =>
      simp only [hr] at hT hsz ⊢
      have hle := read_header_some_le hr
      by_cases h0 : hdr 0 = 0
      · simp only [h0, if_true, Option.some.injEq] at hT ⊢
        subst hT
        exact ⟨lseek_cur_back pos, hle⟩
      · simp only [h0, if_false] at hT hsz ⊢
        have hok : size_ok hdr = true := hsz hdr (List.mem_cons_self _ _)
        have hs := lseek_cur_skip_long pos hdr hok
        unfold TAR_INT at hs
        rw [hs]
        exact ih _ T (by omega) (fun h hh => hsz h (List.mem_cons_of_mem _ hh)) hT

theorem write_at_byte_in (a : Archive) (pos n : Nat) (data : Nat → Nat) (i : Nat)
    (h1 : pos ≤ i) (h2 : i < pos + n) : (write_at a pos n data).byte i = data (i - pos) := by
  show (if pos ≤ i ∧ i < pos + n then data (i - pos) else _) = _
  rw [if_pos ⟨h1, h2⟩]

theorem write_at_byte_other (a : Archive) (pos n : Nat) (data : Nat → Nat) (i : Nat)
    (h : ¬ (pos ≤ i ∧ i < pos + n)) (hi : i < a.size) :
    (write_at a pos n data).byte i = a.byte i := by
  show (if pos ≤ i ∧ i < pos + n then data (i - pos) else if i < a.size then a.byte i else 0) = _
  rw [if_neg h, if_pos hi]

theorem write_at_size_ge (a : Archive) (pos n : Nat) (data : Nat → Nat) :
    a.size ≤ (write_at a pos n data).size := by
  show a.size ≤ (if n = 0 then a.size else max a.size (pos + n))
  split_ifs
  · exact Nat.le_refl _
  · exact Nat.le_max_left _ _

theorem write_at_size_end (a : Archive) (pos n : Nat) (data : Nat → Nat) (hn : n ≠ 0) :
    pos + n ≤ (write_at a pos n data).size := by
  show pos + n ≤ (if n = 0 then a.size else max a.size (pos + n))
  rw [if_neg hn]
  exact Nat.le_max_right _ _

theorem write_at_size (a : Archive) (pos n : Nat) (data : Nat → Nat) :
    (write_at a pos n data).size = if n = 0 then a.size else max a.size (pos + n) := rfl

theorem four_writes_layout (a : Archive) (T len pad : Nat) (hdr src : Nat → Nat)
    (hTle : T + 512 ≤ a.size) :
    let a1 := write_at a T 512 hdr
    let a2 := write_at a1 (T + 512) len src
    let a3 := write_at a2 (T + 512 + len) pad (fun _ => 0)
    let a4 := write_at a3 (T + 512 + len + pad) 1024 (fun _ => 0)
    (∀ i, i < T → a4.byte i = a.byte i) ∧
    (∀ i, i < 512 → a4.byte (T + i) = hdr i) ∧
    (∀ j, j < len → a4.byte (T + 512 + j) = src j) ∧
    (∀ j, j < pad → a4.byte (T + 512 + len + j) = 0) ∧
    (∀ j, j < 1024 → a4.byte (T + 512 + len + pad + j) = 0) ∧
    a4.size = max a.size (T + 512 + len + pad + 1024) := by
  intro a1 a2 a3 a4
  have hs1 : a.size ≤ a1.size := write_at_size_ge a T 512 hdr
  have he1 : T + 512 ≤ a1.size := write_at_size_end a T 512 hdr (by omega)
  have hs2 : a1.size ≤ a2.size := write_at_size_ge a1 (T + 512) len src
  have he2 : len ≠ 0 → T + 512 + len ≤ a2.size := write_at_size_end a1 (T + 512) len src
  have hs3 : a2.size ≤ a3.size := write_at_size_ge a2 (T + 512 + len) pad (fun _ => 0)
  have he3 : pad ≠ 0 → T + 512 + len + pad ≤ a3.size :=
    write_at_size_end a2 (T + 512 + len) pad (fun _ => 0)
  have o4 : ∀ i, i < T + 512 + len + pad → i < a3.size → a4.byte i = a3.byte i := fun i h1 h2 =>
    write_at_byte_other a3 (T + 512 + len + pad) 1024 (fun _ => 0) i (by omega) h2
  have o3 : ∀ i, i < T + 512 + len → i < a2.size → a3.byte i = a2.byte i := fun i h1 h2 =>
    write_at_byte_other a2 (T + 512 + len) pad (fun _ => 0) i (by omega) h2
  have o2 : ∀ i, i < T + 512 → i < a1.size → a2.byte i = a1.byte i := fun i h1 h2 =>
    write_at_byte_other a1 (T + 512) len src i (by omega) h2
  have o1 : ∀ i, i < T → i < a.size → a1.byte i = a.byte i := fun i h1 h2 =>
    write_at_byte_other a T 512 hdr i (by omega) h2
  refine ⟨?_, ?_, ?_, ?_, ?_, ?_⟩
  · intro i hi
    rw [o4 i (by omega) (by omega), o3 i (by omega) (by omega), o2 i (by omega) (by omega),
      o1 i hi (by omega)]
  · intro i hi
    rw [o4 _ (by omega) (by omega), o3 _ (by omega) (by omega), o2 _ (by omega) (by omega),
      write_at_byte_in a T 512 hdr (T + i) (by omega) (by omega)]
    have e : T + i - T = i := by omega
    rw [e]
  · intro j hj
    have := he2 (by omega)
    rw [o4 _ (by omega) (by omega), o3 _ (by omega) (by omega),
      write_at_byte_in a1 (T + 512) len src (T + 512 + j) (by omega) (by omega)]
    have e : T + 512 + j - (T + 512) = j := by omega
    rw [e]
  · intro j hj
    have := he3 (by omega)
    rw [o4 _ (by omega) (by omega),
      write_at_byte_in a2 (T + 512 + len) pad (fun _ => 0) (T + 512 + len + j) (by omega) (by omega)]
  · intro j hj
    exact write_at_byte_in a3 (T + 512 + len + pad) 1024 (fun _ => 0) _ (by omega) (by omega)
  · show (if (1024 : Nat) = 0 then a3.size else max a3.size (T + 512 + len + pad + 1024)) = _
    rw [if_neg (by omega)]
    have e3 : a3.size = if pad = 0 then a2.size else max a2.size (T + 512 + len + pad) := rfl
    have e2 : a2.size = if len = 0 then a1.size else max a1.size (T + 512 + len) := rfl
    have e1 : a1.size = max a.size (T + 512) := rfl
    rw [e3, e2, e1]
    split_ifs <;> omega

/-- C16: let `T` be the offset of the first terminal header of an archive whose
size fields decode to a length between 0 and 2^63 - 512, and let `exists`
return 0 for `filename`. Then `add_file` returns 0 and leaves an archive in
which the bytes before `T` are unchanged, the 512 bytes from `T` are the new
header, the payload follows, then `(512 - len % 512) % 512` zero bytes up to
the block boundary, then 1024 zero bytes; the file ends there or where it
ended before, whichever is later. -/
theorem add_file_layout (a : Archive) (fuel pos T : Nat) (filename src : List Nat) (e : Ret)
    (hfuel : a.size < fuel)
    (hsizes : ∀ h ∈ entries a, size_ok h = true)
    (hT : terminal_offset a = some T)
    (hex : tar_exists fuel a pos filename = some e) (he0 : e.val = 0) :
    ∃ r, add_file fuel a pos filename src = some r ∧ r.val = 0 ∧
      (∀ i, i < T → r.archive.byte i = a.byte i) ∧
      (∀ i, i < 512 → r.archive.byte (T + i) = new_header filename src.length i) ∧
      (∀ j, j < src.length → r.archive.byte (T + 512 + j) = src.getD j 0) ∧
      (∀ j, j < (512 - src.length % 512) % 512 →
        r.archive.byte (T + 512 + src.length + j) = 0) ∧
      (∀ j, j < 1024 →
        r.archive.byte (T + 512 + src.length + (512 - src.length % 512) % 512 + j) = 0) ∧
      r.archive.size =
        max a.size (T + 512 + src.length + (512 - src.length % 512) % 512 + 1024) ∧
      r.pos = T + 512 + src.length + (512 - src.length % 512) % 512 + 1024 := by
  have he := entries_eq_from a fuel hfuel
  have hT2 : terminal_from fuel a 0 = some T := by
    rw [← hT]
    exact terminal_from_fuel a _ _ 0 (by omega) (by omega)
  obtain ⟨hfe, hTle⟩ := find_end_spec a fuel 0 T (by omega) (by rw [← he]; exact hsizes) hT2
  have hadd : add_file fuel a pos filename src = some ⟨0,
      write_at (write_at (write_at (write_at a T 512 (new_header filename src.length))
        (T + 512) src.length (fun j => src.getD j 0))
        (T + 512 + src.length) ((512 - src.length % 512) % 512) (fun _ => 0))
        (T + 512 + src.length + (512 - src.length % 512) % 512) 1024 (fun _ => 0),
      T + 512 + src.length + (512 - src.length % 512) % 512 + 1024⟩ := by
    unfold add_file
    rw [hex]
    simp only [he0, ne_eq, not_true_eq_false, if_false, hfe]
  obtain ⟨l1, l2, l3, l4, l5, l6⟩ := four_writes_layout a T src.length
    ((512 - src.length % 512) % 512) (new_header filename src.length) (fun j => src.getD j 0) hTle
  exact ⟨_, hadd, rfl, l1, l2, l3, l4, l5, l6, rfl⟩

/-- C16 (witness): the file `f` with the two bytes `hi` appended to the archive
with entries `a`, `b`, `c/`, `c/d`, `e/`, whose terminal header stands at
offset 2560. -/
theorem add_file_layout_witness :
    ex_tree.size < 3585 ∧
    (∀ h ∈ entries ex_tree, size_ok h = true) ∧
    terminal_offset ex_tree = some 2560 ∧
    tar_exists 3585 ex_tree 0 [102] = some ⟨0, 3072⟩ ∧
    ∃ r, add_file 3585 ex_tree 0 [102] [104, 105] = some r ∧ r.val = 0 ∧
      (∀ i, i < 2560 → r.archive.byte i = ex_tree.byte i) ∧
      (∀ i, i < 512 → r.archive.byte (2560 + i) = new_header [102] 2 i) ∧
      r.archive.byte 3072 = 104 ∧ r.archive.byte 3073 = 105 ∧
      (∀ j, j < 510 → r.archive.byte (3074 + j) = 0) ∧
      (∀ j, j < 1024 → r.archive.byte (3584 + j) = 0) ∧
      r.archive.size = 4608 := by
  have h1 : ex_tree.size < 3585 := by decide
  have h2 : ∀ h ∈ entries ex_tree, size_ok h = true := by decide!
  have h3 : terminal_offset ex_tree = some 2560 := by decide!
  have h4 : tar_exists 3585 ex_tree 0 [102] = some ⟨0, 3072⟩ := by decide!
  obtain ⟨r, hr, hv, l1, l2, l3, l4, l5, l6, _⟩ :=
    add_file_layout ex_tree 3585 0 2560 [102] [104, 105] ⟨0, 3072⟩ h1 h2 h3 h4 rfl
  refine ⟨h1, h2, h3, h4, r, hr, hv, l1, l2, l3 0 (by decide), l3 1 (by decide), ?_, ?_, ?_⟩
  · intro j hj
    exact l4 j hj
  · intro j hj
    exact l5 j hj
  · rw [l6]; decide

/-! ## The header built by `add_file` -/

theorem oct_repr_digit (f : Nat) : ∀ (n c : Nat), c ∈ oct_repr f n → 48 ≤ c ∧ c ≤ 55 := by
  induction f with
  | zero => intro n c h; simp [oct_repr] at h
  | succ k ih =>
    intro n c h
    unfold oct_repr at h
    by_cases h8 : n < 8
    · simp only [h8, if_true, List.mem_singleton] at h
      omega
    · simp only [h8, if_false, List.mem_append, List.mem_singleton] at h
      rcases h with h | h
      · exact ih _ c h
      · omega

theorem oct_repr_length_le (f : Nat) :
    ∀ (n k : Nat), n < 8 ^ k → 1 ≤ k → (oct_repr f n).length ≤ k := by
  induction f with
  | zero => intro n k _ _; simp [oct_repr]
  | succ m ih =>
    intro n k hn hk
    unfold oct_repr
    by_cases h8 : n < 8
    · simp only [h8, if_true, List.length_singleton]
      exact hk
    · simp only [h8, if_false, List.length_append, List.length_singleton]
      obtain ⟨j, rfl⟩ : ∃ j, k = j + 1 := ⟨k - 1, by omega⟩
      have hj : 1 ≤ j := by
        by_contra hc
        have : j = 0 := by omega
        subst this
        simp at hn
        omega
      have hdiv : n / 8 < 8 ^ j := by
        rw [Nat.pow_succ] at hn
        exact Nat.div_lt_of_lt_mul (by rw [Nat.mul_comm]; exact hn)
      have := ih (n / 8) j hdiv hj
      omega

theorem oct_digits_cons_digit (c : Nat) (cs : List Nat) (acc : Nat) (h1 : 48 ≤ c) (h2 : c ≤ 55) :
    oct_digits (c :: cs) acc = oct_digits cs (acc * 8 + (c - 48)) := by
  simp [oct_digits, h1, h2]

theorem oct_digits_cons_zero (cs : List Nat) (acc : Nat) : oct_digits (0 :: cs) acc = acc := by
  simp [oct_digits]

theorem oct_repr_parse (f : Nat) :
    ∀ (n acc : Nat) (rest : List Nat), n < 8 ^ f →
      oct_digits (oct_repr f n ++ rest) acc
        = oct_digits rest (acc * 8 ^ (oct_repr f n).length + n) := by
  induction f with
  | zero => intro n acc rest h; simp at h; subst h; simp [oct_repr]
  | succ k ih =>
    intro n acc rest hn
    unfold oct_repr
    by_cases h8 : n < 8
    · simp only [h8, if_true, List.singleton_append, List.length_singleton, pow_one]
      rw [oct_digits_cons_digit _ _ _ (by omega) (by omega)]
      congr 1
      omega
    · simp only [h8, if_false, List.append_assoc, List.singleton_append, List.length_append,
        List.length_singleton]
      have hdiv : n / 8 < 8 ^ k := by
        rw [Nat.pow_succ] at hn
        exact Nat.div_lt_of_lt_mul (by rw [Nat.mul_comm]; exact hn)
      rw [ih (n / 8) acc _ hdiv, oct_digits_cons_digit _ _ _ (by omega) (by omega)]
      congr 1
      rw [Nat.pow_succ]
      have e : 48 + n % 8 - 48 = n % 8 := by omega
      rw [e]
      have := Nat.div_add_mod n 8
      generalize 8 ^ (oct_repr k (n / 8)).length = p
      rw [Nat.add_mul, Nat.mul_assoc]
      omega

theorem oct_digits_zeros (m : Nat) (l : List Nat) :
    oct_digits (List.replicate m 48 ++ l) 0 = oct_digits l 0 := by
  induction m with
  | zero => rfl
  | succ m ih =>
    rw [List.replicate_succ, List.cons_append, oct_digits_cons_digit _ _ _ (by omega) (by omega)]
    exact ih

theorem sprintf_oct_length (w n : Nat) (hn : n < 8 ^ w) (hw : 1 ≤ w) :
    (sprintf_oct w n).length = w := by
  have := oct_repr_length_le 22 n w hn hw
  simp only [sprintf_oct, List.length_append, List.length_replicate]
  omega

theorem sprintf_oct_digit (w n c : Nat) (h : c ∈ sprintf_oct w n) : 48 ≤ c ∧ c ≤ 55 := by
  simp only [sprintf_oct, List.mem_append, List.mem_replicate] at h
  rcases h with h | h
  · omega
  · exact oct_repr_digit 22 n c h

theorem sprintf_oct_parse (w n : Nat) (rest : List Nat) (hn : n < 8 ^ 22) :
    oct_digits (sprintf_oct w n ++ 0 :: rest) 0 = n := by
  unfold sprintf_oct
  rw [List.append_assoc, oct_digits_zeros, oct_repr_parse 22 n 0 _ hn, oct_digits_cons_zero]
  simp

theorem strtol8_digit_head (c : Nat) (t : List Nat) (h1 : 48 ≤ c) (h2 : c ≤ 55) :
    strtol8 (c :: t) = min 9223372036854775807 (oct_digits (c :: t) 0 : Int) := by
  have hs : isspace c = false := by
    simp only [isspace, Bool.or_eq_false_iff, beq_eq_false_iff_ne, ne_eq, Bool.and_eq_false_iff,
      decide_eq_false_iff_not]
    constructor
    · omega
    · right; omega
  unfold strtol8
  rw [List.dropWhile_cons, hs]
  simp only [Bool.false_eq_true, if_false]
  split
  · rename_i r heq
    simp only [List.cons.injEq] at heq
    omega
  · rename_i r heq
    simp only [List.cons.injEq] at heq
    omega
  · rfl

theorem strtol8_sprintf (w n : Nat) (rest : List Nat) (hw : 1 ≤ w) (hn : n < 8 ^ 21) :
    strtol8 (sprintf_oct w n ++ 0 :: rest) = n := by
  have hn22 : n < 8 ^ 22 := Nat.lt_of_lt_of_le hn (by norm_num)
  have hp := sprintf_oct_parse w n rest hn22
  cases hs : sprintf_oct w n with
  | nil =>
    exfalso
    have hl : w ≤ (sprintf_oct w n).length := by
      simp only [sprintf_oct, List.length_append, List.length_replicate]
      omega
    rw [hs] at hl
    simp at hl
    omega
  | cons c t =>
    have hc := sprintf_oct_digit w n c (by rw [hs]; exact List.mem_cons_self _ _)
    rw [hs] at hp
    rw [List.cons_append] at hp ⊢
    rw [strtol8_digit_head c _ hc.1 hc.2, hp]
    have : (n : Int) ≤ 9223372036854775807 := by
      have : n < 9223372036854775808 := Nat.lt_of_lt_of_le hn (by norm_num)
      omega
    omega

theorem cstr_of_no_nul (l : List Nat) (h : ∀ c ∈ l, c ≠ 0) : cstr l = l := by
  unfold cstr
  rw [List.takeWhile_eq_self_iff]
  intro c hc
  simpa using h c hc

theorem getD_lt_of_forall (l : List Nat) (B j : Nat) (hB : 0 < B) (h : ∀ c ∈ l, c < B) :
    l.getD j 0 < B := by
  rw [List.getD_eq_getElem?_getD]
  cases hj : l[j]? with
  | none => simpa using hB
  | some c =>
    have := List.getElem?_mem hj
    simpa using h c this

theorem getD_append_zeros (l : List Nat) (k j : Nat) :
    (l ++ List.replicate k 0).getD j 0 = l.getD j 0 := by
  by_cases h8 : j < l.length
  · rw [List.getD_append _ _ _ _ h8]
  · rw [List.getD_append_right _ _ _ _ (by omega)]
    rw [List.getD_eq_getElem?_getD, List.getElem?_replicate]
    rw [List.getD_eq_default _ _ (by omega)]
    split <;> rfl

theorem sprintf_mode : sprintf_oct 7 420 ++ [0] = [48, 48, 48, 48, 54, 52, 52, 0] := by decide

theorem new_header_blank_apply (filename : List Nat) (len i : Nat)
    (hnul : ∀ c ∈ filename, c ≠ 0) (hlen : filename.length < 100) (hsz : len < 8 ^ 11) :
    new_header_blank filename len i =
      if 148 ≤ i ∧ i < 156 then 32
      else if 263 ≤ i ∧ i < 265 then 48
      else if 257 ≤ i ∧ i < 263 then (TMAGIC ++ [0]).getD (i - 257) 0
      else if i = 156 then 48
      else if 124 ≤ i ∧ i < 136 then (sprintf_oct 11 len ++ [0]).getD (i - 124) 0
      else if 100 ≤ i ∧ i < 108 then ([48, 48, 48, 48, 54, 52, 52, 0] : List Nat).getD (i - 100) 0
      else if i < 100 then filename.getD i 0
      else 0 := by
  have hmod : len % 18446744073709551616 = len :=
    Nat.mod_eq_of_lt (Nat.lt_of_lt_of_le hsz (by norm_num))
  have hl11 := sprintf_oct_length 11 len hsz (by norm_num)
  have hc := cstr_of_no_nul filename hnul
  have ht : filename.take 100 = filename := List.take_of_length_le (by omega)
  simp only [new_header_blank, poke, hmod, hc, ht, sprintf_mode, off_name, off_mode, off_size,
    off_typeflag, off_magic, off_version, off_chksum, REGTYPE, TMAGIC, List.length_replicate,
    List.length_append, hl11, List.length_cons, List.length_nil]
  by_cases h1 : 148 ≤ i ∧ i < 156
  · have : i - 148 < 8 := by omega
    simp only [h1, and_self, if_true]
    rw [List.getD_eq_getElem?_getD, List.getElem?_replicate]
    simp [this]
  · rw [if_neg (by omega), if_neg h1]
    by_cases h2 : 263 ≤ i ∧ i < 265
    · rw [if_pos (by omega), if_pos h2]
      obtain ⟨k, rfl⟩ : ∃ k, i = 263 + k := ⟨i - 263, by omega⟩
      have : k = 0 ∨ k = 1 := by omega
      rcases this with rfl | rfl <;> rfl
    · rw [if_neg (by omega), if_neg h2]
      by_cases h3 : 257 ≤ i ∧ i < 263
      · rw [if_pos (by omega), if_pos h3]
      · rw [if_neg (by omega), if_neg h3]
        by_cases h4 : i = 156
        · subst h4
          rfl
        · rw [if_neg (by omega), if_neg h4]
          by_cases h5 : 124 ≤ i ∧ i < 136
          · rw [if_pos (by omega), if_pos h5]
          · rw [if_neg (by omega), if_neg h5]
            by_cases h6 : 100 ≤ i ∧ i < 108
            · rw [if_pos (by omega), if_pos h6]
            · rw [if_neg (by omega), if_neg h6]
              by_cases h7 : i < 100
              · rw [if_pos (by omega), if_pos h7]
                rw [Nat.sub_zero, getD_append_zeros]
              · rw [if_neg (by omega), if_neg h7]

theorem span_eq_of_getD (h : Header) :
    ∀ (l : List Nat) (off : Nat), (∀ j, j < l.length → h (off + j) = l.getD j 0) →
      span h off l.length = l := by
  intro l
  induction l with
  | nil => intro off _; rfl
  | cons c t ih =>
    intro off hj
    show h off :: span h (off + 1) t.length = c :: t
    have h0 := hj 0 (by simp)
    rw [Nat.add_zero] at h0
    rw [h0, ih (off + 1)]
    · rfl
    · intro j hjt
      have := hj (j + 1) (by simpa using hjt)
      rw [show off + 1 + j = off + (j + 1) by omega, this]
      rfl

theorem span_congr (h g : Header) :
    ∀ (n off : Nat), (∀ j, j < n → h (off + j) = g (off + j)) → span h off n = span g off n := by
  intro n
  induction n with
  | zero => intro off _; rfl
  | succ n ih =>
    intro off hj
    show h off :: span h (off + 1) n = g off :: span g (off + 1) n
    have h0 := hj 0 (by omega)
    rw [Nat.add_zero] at h0
    rw [h0, ih (off + 1)]
    intro j hjn
    have := hj (j + 1) (by omega)
    rw [show off + 1 + j = off + (j + 1) by omega, this]

theorem new_header_blank_lt (filename : List Nat) (len : Nat)
    (hnul : ∀ c ∈ filename, c ≠ 0) (hlen : filename.length < 100) (hsz : len < 8 ^ 11)
    (hbytes : ∀ c ∈ filename, c < 256) (i : Nat) :
    new_header_blank filename len i < 256 := by
  rw [new_header_blank_apply filename len i hnul hlen hsz]
  split
  · omega
  · split
    · omega
    · split
      · exact getD_lt_of_forall _ _ _ (by omega) (by decide)
      · split
        · omega
        · split
          · apply getD_lt_of_forall _ _ _ (by omega)
            intro c hc
            rw [List.mem_append] at hc
            rcases hc with hc | hc
            · have := sprintf_oct_digit 11 len c hc
              omega
            · simp at hc
              omega
          · split
            · exact getD_lt_of_forall _ _ _ (by omega) (by decide)
            · split
              · exact getD_lt_of_forall _ _ _ (by omega) hbytes
              · omega

theorem sum_loop_eq_checksum_loop (h : Header) (hs : ∀ i, 148 ≤ i ∧ i < 156 → h i = 32) :
    sum_loop h = checksum_loop h := by
  unfold sum_loop checksum_loop
  apply List.foldl_ext
  intro s i _
  by_cases hc : 148 ≤ i ∧ i < 156
  · rw [if_pos hc, hs i hc]
  · rw [if_neg hc]

theorem chksum_sum_lt (h : Header) (hb : ∀ i, h i < 256) : chksum_sum h < 262144 := by
  have h1 := span_sum_le h hb 148 0
  have h2 := span_sum_le h hb 356 156
  unfold chksum_sum
  omega

theorem sum_loop_blank (filename : List Nat) (len : Nat)
    (hnul : ∀ c ∈ filename, c ≠ 0) (hlen : filename.length < 100) (hsz : len < 8 ^ 11)
    (hbytes : ∀ c ∈ filename, c < 256) :
    sum_loop (new_header_blank filename len) = chksum_sum (new_header_blank filename len) := by
  rw [sum_loop_eq_checksum_loop, checksum_loop_eq_sum _
    (new_header_blank_lt filename len hnul hlen hsz hbytes)]
  intro i hi
  rw [new_header_blank_apply filename len i hnul hlen hsz, if_pos hi]

theorem new_header_apply (filename : List Nat) (len i : Nat)
    (hnul : ∀ c ∈ filename, c ≠ 0) (hlen : filename.length < 100) (hsz : len < 8 ^ 11)
    (hbytes : ∀ c ∈ filename, c < 256) :
    new_header filename len i =
      if 148 ≤ i ∧ i < 155 then
        (sprintf_oct 6 (sum_loop (new_header_blank filename len)) ++ [0]).getD (i - 148) 0
      else new_header_blank filename len i := by
  have hs : sum_loop (new_header_blank filename len) < 8 ^ 6 := by
    rw [sum_loop_blank filename len hnul hlen hsz hbytes]
    exact chksum_sum_lt _ (new_header_blank_lt filename len hnul hlen hsz hbytes)
  have hl := sprintf_oct_length 6 _ hs (by norm_num)
  simp only [new_header, poke, off_chksum, List.length_append, hl, List.length_singleton]

theorem new_header_lt (filename : List Nat) (len : Nat)
    (hnul : ∀ c ∈ filename, c ≠ 0) (hlen : filename.length < 100) (hsz : len < 8 ^ 11)
    (hbytes : ∀ c ∈ filename, c < 256) (i : Nat) :
    new_header filename len i < 256 := by
  rw [new_header_apply filename len i hnul hlen hsz hbytes]
  split
  · apply getD_lt_of_forall _ _ _ (by omega)
    intro c hc
    rw [List.mem_append] at hc
    rcases hc with hc | hc
    · have := sprintf_oct_digit 6 _ c hc
      omega
    · simp at hc
      omega
  · exact new_header_blank_lt filename len hnul hlen hsz hbytes i

theorem new_header_outside_chksum (filename : List Nat) (len i : Nat)
    (hnul : ∀ c ∈ filename, c ≠ 0) (hlen : filename.length < 100) (hsz : len < 8 ^ 11)
    (hbytes : ∀ c ∈ filename, c < 256) (hi : ¬ (148 ≤ i ∧ i < 156)) :
    new_header filename len i =
      if 263 ≤ i ∧ i < 265 then 48
      else if 257 ≤ i ∧ i < 263 then (TMAGIC ++ [0]).getD (i - 257) 0
      else if i = 156 then 48
      else if 124 ≤ i ∧ i < 136 then (sprintf_oct 11 len ++ [0]).getD (i - 124) 0
      else if 100 ≤ i ∧ i < 108 then ([48, 48, 48, 48, 54, 52, 52, 0] : List Nat).getD (i - 100) 0
      else if i < 100 then filename.getD i 0
      else 0 := by
  rw [new_header_apply filename len i hnul hlen hsz hbytes, if_neg (by omega),
    new_header_blank_apply filename len i hnul hlen hsz, if_neg hi]

theorem chksum_sum_new_header (filename : List Nat) (len : Nat)
    (hnul : ∀ c ∈ filename, c ≠ 0) (hlen : filename.length < 100) (hsz : len < 8 ^ 11)
    (hbytes : ∀ c ∈ filename, c < 256) :
    chksum_sum (new_header filename len) = sum_loop (new_header_blank filename len) := by
  rw [sum_loop_blank filename len hnul hlen hsz hbytes]
  unfold chksum_sum
  rw [span_congr (new_header filename len) (new_header_blank filename len) 148 0,
    span_congr (new_header filename len) (new_header_blank filename len) 356 156]
  · intro j hj
    rw [new_header_apply filename len _ hnul hlen hsz hbytes, if_neg (by omega)]
  · intro j hj
    rw [new_header_apply filename len _ hnul hlen hsz hbytes, if_neg (by omega)]

theorem TAR_INT_chksum_new_header (filename : List Nat) (len : Nat)
    (hnul : ∀ c ∈ filename, c ≠ 0) (hlen : filename.length < 100) (hsz : len < 8 ^ 11)
    (hbytes : ∀ c ∈ filename, c < 256) :
    TAR_INT (new_header filename len) off_chksum
      = (sum_loop (new_header_blank filename len) : Int) := by
  have hs : sum_loop (new_header_blank filename len) < 8 ^ 6 := by
    rw [sum_loop_blank filename len hnul hlen hsz hbytes]
    exact chksum_sum_lt _ (new_header_blank_lt filename len hnul hlen hsz hbytes)
  have hl : (sprintf_oct 6 (sum_loop (new_header_blank filename len)) ++ [0]).length = 7 := by
    rw [List.length_append, sprintf_oct_length 6 _ hs (by norm_num)]
    rfl
  have hsp := span_eq_of_getD (new_header filename len)
    (sprintf_oct 6 (sum_loop (new_header_blank filename len)) ++ [0]) 148 (by
      intro j hj
      rw [hl] at hj
      rw [new_header_apply filename len _ hnul hlen hsz hbytes, if_pos (by omega)]
      have e : 148 + j - 148 = j := by omega
      rw [e])
  rw [hl] at hsp
  have e : mem (new_header filename len) off_chksum
      = span (new_header filename len) 148 7 ++ span (new_header filename len) (148 + 7) 357 :=
    span_add (new_header filename len) 7 357 148
  unfold TAR_INT
  rw [e, hsp, List.append_assoc, List.singleton_append]
  exact strtol8_sprintf 6 _ _ (by norm_num) (Nat.lt_of_lt_of_le hs (by norm_num))

theorem TAR_INT_size_new_header (filename : List Nat) (len : Nat)
    (hnul : ∀ c ∈ filename, c ≠ 0) (hlen : filename.length < 100) (hsz : len < 8 ^ 11)
    (hbytes : ∀ c ∈ filename, c < 256) :
    TAR_INT (new_header filename len) off_size = (len : Int) := by
  have hl : (sprintf_oct 11 len ++ [0]).length = 12 := by
    rw [List.length_append, sprintf_oct_length 11 _ hsz (by norm_num)]
    rfl
  have hsp := span_eq_of_getD (new_header filename len) (sprintf_oct 11 len ++ [0]) 124 (by
      intro j hj
      rw [hl] at hj
      rw [new_header_outside_chksum filename len _ hnul hlen hsz hbytes (by omega),
        if_neg (by omega), if_neg (by omega), if_neg (by omega), if_pos (by omega)]
      have e : 124 + j - 124 = j := by omega
      rw [e])
  rw [hl] at hsp
  have e : mem (new_header filename len) off_size
      = span (new_header filename len) 124 12 ++ span (new_header filename len) (124 + 12) 376 :=
    span_add (new_header filename len) 12 376 124
  unfold TAR_INT
  rw [e, hsp, List.append_assoc, List.singleton_append]
  exact strtol8_sprintf 11 _ _ (by norm_num) (Nat.lt_of_lt_of_le hsz (by norm_num))

theorem name_field_new_header (filename : List Nat) (len : Nat)
    (hnul : ∀ c ∈ filename, c ≠ 0) (hlen : filename.length < 100) (hsz : len < 8 ^ 11)
    (hbytes : ∀ c ∈ filename, c < 256) :
    name_field (new_header filename len) = filename := by
  have hl : (filename ++ List.replicate (100 - filename.length) 0).length = 100 := by
    rw [List.length_append, List.length_replicate]
    omega
  have hsp := span_eq_of_getD (new_header filename len)
    (filename ++ List.replicate (100 - filename.length) 0) 0 (by
      intro j hj
      rw [hl] at hj
      rw [new_header_outside_chksum filename len _ hnul hlen hsz hbytes (by omega),
        if_neg (by omega), if_neg (by omega), if_neg (by omega), if_neg (by omega),
        if_neg (by omega), if_pos (by omega), Nat.zero_add, getD_append_zeros])
  rw [hl] at hsp
  unfold name_field
  rw [show off_name = 0 from rfl, hsp]
  obtain ⟨k, hk⟩ : ∃ k, 100 - filename.length = k + 1 := ⟨99 - filename.length, by omega⟩
  rw [hk, List.replicate_succ]
  unfold cstr
  rw [List.takeWhile_append_of_pos]
  · simp
  · intro c hc
    simpa using hnul c hc

theorem conformant_new_header (filename : List Nat) (len : Nat)
    (hnul : ∀ c ∈ filename, c ≠ 0) (hlen : filename.length < 100) (hsz : len < 8 ^ 11)
    (hbytes : ∀ c ∈ filename, c < 256) :
    conformant (new_header filename len) = true := by
  have hm : span (new_header filename len) off_magic 6 = [117, 115, 116, 97, 114, 0] := by
    apply span_eq_of_getD (new_header filename len) [117, 115, 116, 97, 114, 0] 257
    intro j hj
    simp only [List.length_cons, List.length_nil] at hj
    rw [new_header_outside_chksum filename len _ hnul hlen hsz hbytes (by omega),
      if_neg (by omega), if_pos (by omega)]
    have e : 257 + j - 257 = j := by omega
    rw [e]
    rfl
  have hv : span (new_header filename len) off_version 2 = [48, 48] := by
    apply span_eq_of_getD (new_header filename len) [48, 48] 263
    intro j hj
    simp only [List.length_cons, List.length_nil] at hj
    rw [new_header_outside_chksum filename len _ hnul hlen hsz hbytes (by omega),
      if_pos (by omega)]
    have : j = 0 ∨ j = 1 := by omega
    rcases this with rfl | rfl <;> rfl
  unfold conformant
  rw [hm, hv, TAR_INT_chksum_new_header filename len hnul hlen hsz hbytes,
    chksum_sum_new_header filename len hnul hlen hsz hbytes]
  simp

/-- C17: for a non-empty filename shorter than 100 bytes (bytes below 256, none
of them NUL) and a length below 8^11, the header that `add_file` builds is not
a terminal header and passes the three checks of `check_archive`: its magic
reads `"ustar"`, its version is `"00"`, and the sum that `check_archive`
computes equals the decoded checksum field; that sum is the one `add_file`
printed and is below 8^6, so it is printed as exactly six octal digits. The
header is conformant, decodes to the same name, to the size `len` and to the
typeflag `'0'`, its mode field reads `"0000644"`, and every byte of the fields
that were not set (uid, gid, mtime, linkname, and all that follows the version)
is zero. -/
theorem new_header_round_trip (filename : List Nat) (len : Nat) (hne : filename ≠ [])
    (hnul : ∀ c ∈ filename, c ≠ 0) (hbytes : ∀ c ∈ filename, c < 256)
    (hlen : filename.length < 100) (hsz : len < 8 ^ 11) :
    new_header filename len 0 ≠ 0 ∧
    cstr_at (new_header filename len) off_magic = TMAGIC ∧
    span (new_header filename len) off_version 2 = [48, 48] ∧
    (checksum_loop (new_header filename len) : Int)
      = strtol8 (mem (new_header filename len) off_chksum) ∧
    checksum_loop (new_header filename len) = sum_loop (new_header_blank filename len) ∧
    sum_loop (new_header_blank filename len) < 8 ^ 6 ∧
    (sprintf_oct 6 (sum_loop (new_header_blank filename len))).length = 6 ∧
    conformant (new_header filename len) = true ∧
    name_field (new_header filename len) = filename ∧
    TAR_INT (new_header filename len) off_size = (len : Int) ∧
    typeflag (new_header filename len) = 48 ∧
    span (new_header filename len) off_mode 8 = [48, 48, 48, 48, 54, 52, 52, 0] ∧
    ∀ i, (108 ≤ i ∧ i < 124) ∨ (136 ≤ i ∧ i < 148) ∨ (157 ≤ i ∧ i < 257) ∨ 265 ≤ i →
      new_header filename len i = 0 := by
  have hconf := conformant_new_header filename len hnul hlen hsz hbytes
  have hb := new_header_lt filename len hnul hlen hsz hbytes
  have hs : sum_loop (new_header_blank filename len) < 8 ^ 6 := by
    rw [sum_loop_blank filename len hnul hlen hsz hbytes]
    exact chksum_sum_lt _ (new_header_blank_lt filename len hnul hlen hsz hbytes)
  have hck : checksum_loop (new_header filename len)
      = sum_loop (new_header_blank filename len) := by
    rw [checksum_loop_eq_sum _ hb, chksum_sum_new_header filename len hnul hlen hsz hbytes]
  refine ⟨?_, conformant_magic _ hconf, ?_, ?_, hck, hs, sprintf_oct_length 6 _ hs (by norm_num),
    hconf, name_field_new_header filename len hnul hlen hsz hbytes,
    TAR_INT_size_new_header filename len hnul hlen hsz hbytes, ?_, ?_, ?_⟩
  · rw [new_header_outside_chksum filename len _ hnul hlen hsz hbytes (by omega),
      if_neg (by omega), if_neg (by omega), if_neg (by omega), if_neg (by omega),
      if_neg (by omega), if_pos (by omega)]
    cases filename with
    | nil => exact absurd rfl hne
    | cons c t => exact hnul c (List.mem_cons_self _ _)
  · have h := hconf
    simp only [conformant, Bool.and_eq_true, beq_iff_eq] at h
    exact h.1.2
  · have h := conformant_chksum _ hb hconf
    exact not_not.mp h
  · unfold typeflag
    rw [show off_typeflag = 156 from rfl,
      new_header_outside_chksum filename len _ hnul hlen hsz hbytes (by omega),
      if_neg (by omega), if_neg (by omega), if_pos rfl]
  · apply span_eq_of_getD (new_header filename len) [48, 48, 48, 48, 54, 52, 52, 0] 100
    intro j hj
    simp only [List.length_cons, List.length_nil] at hj
    rw [new_header_outside_chksum filename len _ hnul hlen hsz hbytes (by omega),
      if_neg (by omega), if_neg (by omega), if_neg (by omega), if_neg (by omega),
      if_pos (by omega)]
    have e : 100 + j - 100 = j := by omega
    rw [e]
  · intro i hi
    rw [new_header_outside_chksum filename len _ hnul hlen hsz hbytes (by omega),
      if_neg (by omega), if_neg (by omega), if_neg (by omega), if_neg (by omega),
      if_neg (by omega), if_neg (by omega)]

/-- C17 (witness): at the filename `f` and the length 2 the header decodes
to name `f`, size 2 and typeflag `'0'`, its checksum field reads
`"003625"`, and an archive made of this header, one data block and two zero
blocks is counted by `check_archive` as one entry. -/
theorem new_header_round_trip_witness :
    ([102] : List Nat) ≠ [] ∧ (∀ c ∈ ([102] : List Nat), c ≠ 0) ∧
    (∀ c ∈ ([102] : List Nat), c < 256) ∧
    cstr_at (new_header [102] 2) off_magic = TMAGIC ∧
    span (new_header [102] 2) off_version 2 = [48, 48] ∧
    (checksum_loop (new_header [102] 2) : Int) = strtol8 (mem (new_header [102] 2) off_chksum) ∧
    conformant (new_header [102] 2) = true ∧
    name_field (new_header [102] 2) = [102] ∧
    TAR_INT (new_header [102] 2) off_size = 2 ∧
    typeflag (new_header [102] 2) = 48 ∧
    span (new_header [102] 2) off_chksum 8 = [48, 48, 51, 54, 50, 53, 0, 32] ∧
    check_archive 5 (of_blocks [new_header [102] 2, zero_block, zero_block, zero_block]) 0
      = some ⟨1, 1536⟩ := by
  have h1 : ([102] : List Nat) ≠ [] := by decide
  have h2 : ∀ c ∈ ([102] : List Nat), c ≠ 0 := by decide
  have h3 : ∀ c ∈ ([102] : List Nat), c < 256 := by decide
  have t := new_header_round_trip [102] 2 h1 h2 h3 (by decide) (by norm_num)
  exact ⟨h1, h2, h3, t.2.1, t.2.2.1, t.2.2.2.1, t.2.2.2.2.2.2.2.1, t.2.2.2.2.2.2.2.2.1,
    t.2.2.2.2.2.2.2.2.2.1, t.2.2.2.2.2.2.2.2.2.2.1, by decide!, by decide!⟩

/-! ## `add_file` and the scanning routines -/

theorem add_file_refuses_existing (a : Archive) (fuel pos : Nat) (filename src : List Nat)
    (e : Ret) (hex : tar_exists fuel a pos filename = some e) (he : e.val ≠ 0) :
    add_file fuel a pos filename src = some ⟨-1, a, e.pos⟩ := by
  unfold add_file
  rw [hex]
  simp only [he, ne_eq, not_false_eq_true, if_true]

theorem read_header_agree (a b : Archive) (pos T : Nat) (hdr : Header)
    (hb : ∀ i, i < T → b.byte i = a.byte i) (hpos : pos + 512 ≤ T) (hT : T ≤ b.size)
    (hr : read_header a pos = some hdr) : read_header b pos = some hdr := by
  unfold read_header at hr ⊢
  have hle := Nat.le_trans hpos hT
  by_cases hc : pos + 512 ≤ a.size
  · rw [if_pos hc] at hr
    rw [if_pos hle, ← Option.some.inj hr]
    congr 1
    funext i
    by_cases hi : i < 512
    · rw [if_pos hi, if_pos hi, hb (pos + i) (by omega)]
    · rw [if_neg hi, if_neg hi]
  · rw [if_neg hc] at hr
    exact Option.noConfusion hr

theorem entries_from_extend (a b : Archive) (T : Nat) (nh z : Header)
    (hb : ∀ i, i < T → b.byte i = a.byte i)
    (hrT : read_header b T = some nh) (hn0 : nh 0 ≠ 0)
    (hrz : read_header b (T + 512 + data_blocks (size_field nh) * 512) = some z)
    (hz : z 0 = 0) :
    ∀ (n pos m : Nat), terminal_from n a pos = some T → b.size - pos < m →
      entries_from m b pos = entries_from n a pos ++ [nh] := by
  have hTb := read_header_some_le hrT
  intro n
  induction n with
  | zero => intro pos m h; simp [terminal_from] at h
  | succ n ih =>
    intro pos m h hm
    have hge := terminal_from_ge a _ pos T h
    unfold terminal_from at h
    cases hr : read_header a pos with
    | none => simp [hr] at h
    | some hdr =>
      simp only [hr] at h
      by_cases h0 : hdr 0 = 0
      · simp only [h0, if_true, Option.some.injEq] at h
        subst h
        obtain ⟨m1, rfl⟩ : ∃ m1, m = m1 + 1 := ⟨m - 1, by omega⟩
        obtain ⟨m2, rfl⟩ : ∃ m2, m1 = m2 + 1 := ⟨m1 - 1, by omega⟩
        have e1 : entries_from (n + 1) a pos = [] := by
          unfold entries_from
          simp only [hr, h0, if_true]
        rw [e1]
        unfold entries_from
        simp only [hrT, hn0, if_false]
        unfold entries_from
        simp only [hrz, hz, if_true, List.nil_append]
      · simp only [h0, if_false] at h
        have hge2 := terminal_from_ge a _ _ T h
        obtain ⟨m1, rfl⟩ : ∃ m1, m = m1 + 1 := ⟨m - 1, by omega⟩
        have hrb := read_header_agree a b pos T hdr hb (by omega) (by omega) hr
        have e1 : entries_from (n + 1) a pos
            = hdr :: entries_from n a (pos + 512 + data_blocks (size_field hdr) * 512) := by
          conv => lhs; unfold entries_from
          simp only [hr, h0, if_false]
        have e2 : entries_from (m1 + 1) b pos
            = hdr :: entries_from m1 b (pos + 512 + data_blocks (size_field hdr) * 512) := by
          conv => lhs; unfold entries_from
          simp only [hrb, h0, if_false]
        rw [e1, e2, ih _ m1 h (by omega)]
        rfl

theorem new_header_zero_tail (filename : List Nat) (len i : Nat)
    (hnul : ∀ c ∈ filename, c ≠ 0) (hlen : filename.length < 100) (hsz : len < 8 ^ 11)
    (hbytes : ∀ c ∈ filename, c < 256) (hi : 512 ≤ i) : new_header filename len i = 0 := by
  rw [new_header_outside_chksum filename len _ hnul hlen hsz hbytes (by omega),
    if_neg (by omega), if_neg (by omega), if_neg (by omega), if_neg (by omega),
    if_neg (by omega), if_neg (by omega)]

theorem new_header_first_ne (filename : List Nat) (len : Nat) (hne : filename ≠ [])
    (hnul : ∀ c ∈ filename, c ≠ 0) (hlen : filename.length < 100) (hsz : len < 8 ^ 11)
    (hbytes : ∀ c ∈ filename, c < 256) : new_header filename len 0 ≠ 0 := by
  rw [new_header_outside_chksum filename len _ hnul hlen hsz hbytes (by omega),
    if_neg (by omega), if_neg (by omega), if_neg (by omega), if_neg (by omega),
    if_neg (by omega), if_pos (by omega)]
  cases filename with
  | nil => exact absurd rfl hne
  | cons c t => exact hnul c (List.mem_cons_self _ _)

theorem typeflag_new_header (filename : List Nat) (len : Nat)
    (hnul : ∀ c ∈ filename, c ≠ 0) (hlen : filename.length < 100) (hsz : len < 8 ^ 11)
    (hbytes : ∀ c ∈ filename, c < 256) : typeflag (new_header filename len) = 48 := by
  unfold typeflag
  rw [show off_typeflag = 156 from rfl,
    new_header_outside_chksum filename len _ hnul hlen hsz hbytes (by omega),
    if_neg (by omega), if_neg (by omega), if_pos rfl]

theorem entries_after_add (a b : Archive) (T : Nat) (filename : List Nat) (len pad : Nat)
    (hne : filename ≠ []) (hnul : ∀ c ∈ filename, c ≠ 0) (hbytes : ∀ c ∈ filename, c < 256)
    (hlen : filename.length < 100) (hsz : len < 8 ^ 11)
    (hpad : pad = (512 - len % 512) % 512)
    (hT : terminal_offset a = some T)
    (l1 : ∀ i, i < T → b.byte i = a.byte i)
    (l2 : ∀ i, i < 512 → b.byte (T + i) = new_header filename len i)
    (l5 : ∀ j, j < 1024 → b.byte (T + 512 + len + pad + j) = 0)
    (l6 : T + 512 + len + pad + 1024 ≤ b.size) :
    entries b = entries a ++ [new_header filename len] := by
  have hrT : read_header b T = some (new_header filename len) := by
    unfold read_header
    rw [if_pos (by omega)]
    congr 1
    funext i
    by_cases hi : i < 512
    · rw [if_pos hi, l2 i hi]
      exact Nat.mod_eq_of_lt (new_header_lt filename len hnul hlen hsz hbytes i)
    · rw [if_neg hi, new_header_zero_tail filename len i hnul hlen hsz hbytes (by omega)]
  have hsf : size_field (new_header filename len) = len := by
    unfold size_field
    rw [TAR_INT_size_new_header filename len hnul hlen hsz hbytes]
    rfl
  have hdb : data_blocks len * 512 = len + pad := by
    unfold data_blocks
    omega
  have hrz : read_header b (T + 512 + data_blocks (size_field (new_header filename len)) * 512)
      = some (fun i => if i < 512 then b.byte (T + 512 + len + pad + i) % 256 else 0) := by
    rw [hsf, hdb]
    unfold read_header
    rw [if_pos (by omega)]
    congr 1
    funext i
    have e : T + 512 + (len + pad) + i = T + 512 + len + pad + i := by omega
    rw [e]
  have hz : (fun i => if i < 512 then b.byte (T + 512 + len + pad + i) % 256 else 0) 0 = 0 := by
    show (if 0 < 512 then b.byte (T + 512 + len + pad + 0) % 256 else 0) = 0
    rw [if_pos (by omega), l5 0 (by omega)]
  exact entries_from_extend a b T _ _ l1 hrT
    (new_header_first_ne filename len hne hnul hlen hsz hbytes) hrz hz
    (a.size + 1) 0 (b.size + 1) hT (by omega)

/-- End-to-end behaviour of `add_file` where names are shorter than 100 bytes and
entries smaller than 2^31 - 511 bytes: on a conformant archive with a terminal
header and no entry named `filename`, `add_file` returns 0; afterwards
`check_archive` counts one entry more, `is_file` and `exists` return nonzero
for `filename`, and a second `add_file` with the same filename returns -1 and
leaves the archive as it is. -/
theorem add_file_then_scan (a : Archive) (fuel fuel2 pos pos2 T : Nat)
    (filename src src2 : List Nat)
    (hfuel : a.size < fuel)
    (hfuel2 : max a.size (T + 512 + src.length + (512 - src.length % 512) % 512 + 1024) < fuel2)
    (hconf : ∀ h ∈ entries a, conformant h = true)
    (hnames : ∀ h ∈ entries a, (name_field h).length < 100)
    (hsizes : ∀ h ∈ entries a, size_fits_int h = true)
    (hT : terminal_offset a = some T)
    (hfresh : ∀ h ∈ entries a, name_field h ≠ filename)
    (hne : filename ≠ []) (hnul : ∀ c ∈ filename, c ≠ 0) (hbytes : ∀ c ∈ filename, c < 256)
    (hlen : filename.length < 100) (hsrc : src.length + 511 < 2147483648) :
    ∃ r, add_file fuel a pos filename src = some r ∧ r.val = 0 ∧
      entries r.archive = entries a ++ [new_header filename src.length] ∧
      (∃ p, check_archive fuel2 r.archive 0 = some ⟨((entries a).length : Int) + 1, p⟩) ∧
      (∃ q, is_file fuel2 r.archive pos2 filename = some q ∧ q.val ≠ 0) ∧
      (∃ e, tar_exists fuel2 r.archive r.pos filename = some e ∧ e.val ≠ 0 ∧
        add_file fuel2 r.archive r.pos filename src2 = some ⟨-1, r.archive, e.pos⟩) := by
  have hsz : src.length < 8 ^ 11 := by
    have h8 : (8 : Nat) ^ 11 = 8589934592 := by norm_num
    rw [h8]
    omega
  have hcf := cstr_of_no_nul filename hnul
  have hok : ∀ h ∈ entries a, size_ok h = true := by
    intro h hh
    have := hsizes h hh
    simp only [size_fits_int, size_ok, Bool.and_eq_true, decide_eq_true_eq] at this ⊢
    omega
  -- `exists` returns 0 on the archive as it was
  obtain ⟨e, hex, hev⟩ := exists_iff_entry_named a fuel pos filename hfuel hnames hsizes
  have he0 : e.val = 0 := by
    by_contra hc
    obtain ⟨h, hh, hn⟩ := hev.mp hc
    rw [hcf] at hn
    exact hfresh h hh hn
  -- the archive that `add_file` leaves
  have he := entries_eq_from a fuel hfuel
  have hT2 : terminal_from fuel a 0 = some T := by
    rw [← hT]
    exact terminal_from_fuel a _ _ 0 (by omega) (by omega)
  obtain ⟨hfe, hTle⟩ := find_end_spec a fuel 0 T (by omega) (by rw [← he]; exact hok) hT2
  have hadd : add_file fuel a pos filename src = some ⟨0,
      write_at (write_at (write_at (write_at a T 512 (new_header filename src.length))
        (T + 512) src.length (fun j => src.getD j 0))
        (T + 512 + src.length) ((512 - src.length % 512) % 512) (fun _ => 0))
        (T + 512 + src.length + (512 - src.length % 512) % 512) 1024 (fun _ => 0),
      T + 512 + src.length + (512 - src.length % 512) % 512 + 1024⟩ := by
    unfold add_file
    rw [hex]
    simp only [he0, ne_eq, not_true_eq_false, if_false, hfe]
  obtain ⟨l1, l2, _, _, l5, l6⟩ := four_writes_layout a T src.length
    ((512 - src.length % 512) % 512) (new_header filename src.length) (fun j => src.getD j 0) hTle
  refine ⟨_, hadd, rfl, ?_⟩
  generalize write_at (write_at (write_at (write_at a T 512 (new_header filename src.length))
        (T + 512) src.length (fun j => src.getD j 0))
        (T + 512 + src.length) ((512 - src.length % 512) % 512) (fun _ => 0))
        (T + 512 + src.length + (512 - src.length % 512) % 512) 1024 (fun _ => 0) = b
    at l1 l2 l5 l6
  have hent : entries b = entries a ++ [new_header filename src.length] :=
    entries_after_add a b T filename src.length _ hne hnul hbytes hlen hsz rfl hT l1 l2 l5
      (by rw [l6]; exact Nat.le_max_right _ _)
  have hbf : b.size < fuel2 := by rw [l6]; exact hfuel2
  have hnf := name_field_new_header filename src.length hnul hlen hsz hbytes
  have hconf2 : ∀ h ∈ entries b, conformant h = true := by
    intro h hh
    rw [hent, List.mem_append, List.mem_singleton] at hh
    rcases hh with hh | rfl
    · exact hconf h hh
    · exact conformant_new_header filename src.length hnul hlen hsz hbytes
  have hnames2 : ∀ h ∈ entries b, (name_field h).length < 100 := by
    intro h hh
    rw [hent, List.mem_append, List.mem_singleton] at hh
    rcases hh with hh | rfl
    · exact hnames h hh
    · rw [hnf]; exact hlen
  have hsizes2 : ∀ h ∈ entries b, size_fits_int h = true := by
    intro h hh
    rw [hent, List.mem_append, List.mem_singleton] at hh
    rcases hh with hh | rfl
    · exact hsizes h hh
    · simp only [size_fits_int, Bool.and_eq_true, decide_eq_true_eq]
      rw [TAR_INT_size_new_header filename src.length hnul hlen hsz hbytes]
      omega
  have hmem : new_header filename src.length ∈ entries b := by
    rw [hent]
    exact List.mem_append_right _ (List.mem_singleton_self _)
  refine ⟨hent, ?_, ?_, ?_⟩
  · obtain ⟨p, hp⟩ := check_archive_counts_entries b fuel2 hbf hconf2 hsizes2
    refine ⟨p, ?_⟩
    rw [hp, hent]
    simp
  · obtain ⟨q, hq, hqv⟩ := is_file_iff_regular_entry_named b fuel2 pos2 filename hbf hnames2 hsizes2
    refine ⟨q, hq, hqv.mpr ⟨_, hmem, ?_, Or.inl ?_⟩⟩
    · rw [hnf, hcf]
    · exact typeflag_new_header filename src.length hnul hlen hsz hbytes
  · obtain ⟨e2, he2, he2v⟩ := exists_iff_entry_named b fuel2
      (T + 512 + src.length + (512 - src.length % 512) % 512 + 1024) filename hbf hnames2 hsizes2
    have hv : e2.val ≠ 0 := he2v.mpr ⟨_, hmem, by rw [hnf, hcf]⟩
    exact ⟨e2, he2, hv, add_file_refuses_existing b fuel2 _ filename src2 e2 he2 hv⟩

/-- On the archive with entries `a`, `b`, `c/`, `c/d`, `e/`, appending the file
`f` with the payload `hi` succeeds; `check_archive` then counts 6 entries,
`is_file` finds `f`, and appending `f` again is refused. -/
theorem add_file_then_scan_on_tree :
    ∃ r, add_file 3585 ex_tree 0 [102] [104, 105] = some r ∧ r.val = 0 ∧
      (∃ p, check_archive 4609 r.archive 0 = some ⟨6, p⟩) ∧
      (∃ q, is_file 4609 r.archive 0 [102] = some q ∧ q.val ≠ 0) ∧
      (∃ e, add_file 4609 r.archive r.pos [102] [104, 105] = some ⟨-1, r.archive, e⟩) := by
  obtain ⟨r, h1, h2, _, ⟨p, h4⟩, h5, ⟨e, _, _, h6⟩⟩ := add_file_then_scan ex_tree 3585 4609 0 0 2560
    [102] [104, 105] [104, 105] (by decide) (by decide) (by decide!) (by decide!) (by decide!)
    (by decide!) (by decide!) (by decide) (by decide) (by decide) (by decide) (by decide)
  have hl : (entries ex_tree).length = 5 := by decide!
  rw [hl] at h4
  exact ⟨r, h1, h2, ⟨p, h4⟩, h5, ⟨e.pos, h6⟩⟩

/-- C14 (code defect): on the archive made of two zero blocks, `add_file` with a filename of
100 bytes `a` and the payload `hi` returns 0; `exists` called with the same
filename on the archive it leaves returns 0; a second `add_file` with the same
filename returns 0 again and leaves an archive of 3072 bytes, in which
`check_archive` counts 2 entries where it counted 1 after the first call. -/
theorem add_file_twice_appends_full_length_name :
    name_100.length = 100 ∧
    (add_file 5 ex_empty 0 name_100 [104, 105]).map (fun r => (r.val, r.archive.size, r.pos))
      = some (0, 2048, 2048) ∧
    (add_file 5 ex_empty 0 name_100 [104, 105]).bind
        (fun r => tar_exists 5 r.archive r.pos name_100) = some ⟨0, 1536⟩ ∧
    (add_file 5 ex_empty 0 name_100 [104, 105]).bind
        (fun r => check_archive 5 r.archive 0) = some ⟨1, 1536⟩ ∧
    ((add_file 5 ex_empty 0 name_100 [104, 105]).bind
        (fun r => add_file 5 r.archive r.pos name_100 [104, 105])).map
        (fun r => (r.val, r.archive.size, r.pos)) = some (0, 3072, 3072) ∧
    ((add_file 5 ex_empty 0 name_100 [104, 105]).bind
        (fun r => add_file 5 r.archive r.pos name_100 [104, 105])).bind
        (fun r => check_archive 5 r.archive 0) = some ⟨2, 2560⟩ := by
  decide!

/-- C15 (code defect): the archive made of two zero blocks has its terminal header at offset
0, counts 0 entries and has no entry named by the 100 bytes `a`; `add_file`
with that filename and the payload `hi` returns 0, after which `check_archive`
from offset 0 returns 1 and `is_file` called with the same filename returns
0. -/
theorem add_file_full_length_name_not_a_file :
    name_100.length = 100 ∧
    terminal_offset ex_empty = some 0 ∧
    check_archive 5 ex_empty 0 = some ⟨0, 512⟩ ∧
    tar_exists 5 ex_empty 0 name_100 = some ⟨0, 512⟩ ∧
    (add_file 5 ex_empty 0 name_100 [104, 105]).map (fun r => r.val) = some 0 ∧
    (add_file 5 ex_empty 0 name_100 [104, 105]).bind
        (fun r => check_archive 5 r.archive 0) = some ⟨1, 1536⟩ ∧
    (add_file 5 ex_empty 0 name_100 [104, 105]).bind
        (fun r => is_file 5 r.archive r.pos name_100) = some ⟨0, 1536⟩ := by
  decide!

/-! ## Skip arithmetic -/

theorem skip_int_eq_skip_long (s : Int) (h0 : 0 ≤ s) (h1 : s + 511 < 2147483648) :
    skip_int s = skip_long s ∧ skip_long s = (s + 511) / 512 * 512 := by
  rw [skip_int_of_small s h0 h1, skip_long_of_nonneg s h0 (by omega)]
  refine ⟨rfl, ?_⟩
  push_cast
  rw [Int.toNat_of_nonneg h0]

/-- C19 (code defect): for the size 2^31, which an 11-digit octal field holds as
`20000000000`, the `int` product of `check_archive`, `exists`, `is_file` and
`is_symlink` is -2^31 while the `long` expression of `is_dir`, `list` and
`add_file` is 2^31. On the archive made of an entry `big` of 2^31 bytes, an
entry `a` and two zero blocks, `exists` does not reach the header of `a` and
returns 0, while `list` visits both headers. -/
theorem skip_int_differs_from_skip_long :
    (2147483648 : Int) < 8 ^ 11 ∧
    skip_int 2147483648 = -2147483648 ∧
    skip_long 2147483648 = 2147483648 ∧
    (entries ex_big_then_a).map name_field = [[98, 105, 103], [97]] ∧
    (entries ex_big_then_a).map (fun h => TAR_INT h off_size) = [2147483648, 0] ∧
    tar_exists 5 ex_big_then_a 0 [97] = some ⟨0, 1024⟩ ∧
    list 5 ex_big_then_a 0 none 10
      = some ⟨1, 2, [(0, [98, 105, 103]), (1, [97])], 2147485184⟩ := by
  decide!

end LibTar
